import Mathlib

/-!
Verification of the dimensional-algebra and conversion-synthesis engine of the
simple-si-units code generator (code-generator/code_generator.py).

The Python code is shallowly embedded: Python strings are Lean `String`s
(manipulated through their `List Char` data where the Python code slices and
splits), Python lists are Lean `List`s, the mutable `SIUnits` class is a value
structure whose constructor performs the same simplification that
`SIUnits.__init__` performs, and Python exceptions (`ValueError` from `int()`
and tuple unpacking) are modelled with `Option`: `none` is an escaped
exception.
-/

namespace SIGen

/-! ## Character-list utilities

These model the Python `str` primitives used by the generator:
`str.split(sep)` for a single-character separator, substring search and
`str.split(sub, maxsplit=1)`, and `str` concatenation. They operate on
`List Char`, which is definitionally the `data` of a Lean `String`.
-/

/-- Models Python `s.split(c)` for a one-character separator `c`:
always returns at least one (possibly empty) chunk, one extra chunk per
separator occurrence. -/
def splitChar (c : Char) : List Char → List (List Char)
| [] => [[]]
| x :: xs =>
  match splitChar c xs with
  | [] => [[]]
  | s :: rest => if x = c then [] :: s :: rest else (x :: s) :: rest

/-- Joins chunks with a one-character separator; inverse of `splitChar`. -/
def joinChar (c : Char) : List (List Char) → List Char
| [] => []
| [a] => a
| a :: rest => a ++ c :: joinChar c rest

/-- Models Python `text.split(sub, maxsplit=1)` for a non-empty substring:
`some (before, after)` around the first occurrence of `sub`, `none` when `sub`
does not occur. -/
def splitOnceSub (p : List Char) : List Char → Option (List Char × List Char)
| [] => if p = [] then some ([], []) else none
| c :: cs =>
  if p.isPrefixOf (c :: cs) then some ([], (c :: cs).drop p.length)
  else
    match splitOnceSub p cs with
    | some (a, b) => some (c :: a, b)
    | none => none

/-- Models Python `sub in text` (substring containment). -/
def containsSub (p text : List Char) : Bool := (splitOnceSub p text).isSome

/-! ## Integer rendering and parsing

`natRepr` models Python `'%s' % n` for a non-negative `int`; `pyInt` models
Python `int(s)` (returning `none` where Python raises `ValueError`).
Whitespace-padded and underscore-grouped numerals, which `int()` also accepts,
are not modelled; no input of the generator uses them.
-/

def natDigitChar : Nat → Char
| 0 => '0' | 1 => '1' | 2 => '2' | 3 => '3' | 4 => '4'
| 5 => '5' | 6 => '6' | 7 => '7' | 8 => '8' | _ => '9'

/-- Little-endian decimal digits; `fuel` bounds the recursion depth and any
`fuel > n` yields the same result (`natDigitsGo_congr`). -/
def natDigitsGo : Nat → Nat → List Char
| 0, _ => []
| fuel + 1, n => if n < 10 then [natDigitChar n] else natDigitChar (n % 10) :: natDigitsGo fuel (n / 10)

def natRepr (n : Nat) : String := String.mk (natDigitsGo (n + 1) n).reverse

def digitVal (c : Char) : Option Nat :=
  if c = '0' then some 0 else if c = '1' then some 1 else if c = '2' then some 2
  else if c = '3' then some 3 else if c = '4' then some 4 else if c = '5' then some 5
  else if c = '6' then some 6 else if c = '7' then some 7 else if c = '8' then some 8
  else if c = '9' then some 9 else none

def parseDigitsGo (acc : Nat) : List Char → Option Nat
| [] => some acc
| c :: cs =>
  match digitVal c with
  | some d => parseDigitsGo (acc * 10 + d) cs
  | none => none

/-- All-decimal-digit strings only; the empty string fails, like `int('')`. -/
def parseDigits : List Char → Option Nat
| [] => none
| l => parseDigitsGo 0 l

/-- Models Python `int(s)`: optional sign followed by decimal digits. -/
def pyInt : List Char → Option Int
| [] => none
| c :: cs =>
  if c = '-' then (parseDigits cs).map (fun n => -(n : Int))
  else if c = '+' then (parseDigits cs).map (fun n => (n : Int))
  else (parseDigits (c :: cs)).map (fun n => (n : Int))

/-! ## The SIUnits class (code_generator.py lines 464-545)

`SIUnits.__init__` stores numerator/denominator token lists and immediately
calls `_simplify` (cancel common tokens, then sort both sides); every
construction site in the source goes through `__init__`, which `mkSIUnits`
models. `_cancel_units` deletes the first numerator token that also occurs in
the denominator (removing the denominator's first occurrence of it) and
restarts; `cancelUnits` performs the same deletions in one left-to-right pass,
which is equivalent because a numerator token that has no match in the
denominator can never gain one later (the denominator only shrinks).
`list.sort` on Python strings is sorting by the lexicographic order that
Lean's `String` linear order also implements; `List.insertionSort` is a
faithful model because sorted output over a linear order is unique.
-/

structure SIUnits where
  numerator : List String
  denominator : List String
deriving DecidableEq

/-- Lexicographic comparison of character lists by code point: exactly the
order Python uses to compare `str` values. -/
def charLeB : List Char → List Char → Bool
| [], _ => true
| _ :: _, [] => false
| a :: as, b :: bs => if a = b then charLeB as bs else decide (a < b)

/-- The string order Python `list.sort()` sorts by. -/
def strLe (a b : String) : Prop := charLeB a.data b.data = true

instance : DecidableRel strLe := fun a b =>
  inferInstanceAs (Decidable (charLeB a.data b.data = true))

/-- Models `SIUnits._cancel_units`. -/
def cancelUnits : List String → List String → List String × List String
| [], den => ([], den)
| n :: ns, den =>
  if n ∈ den then cancelUnits ns (den.erase n)
  else
    let p := cancelUnits ns den
    (n :: p.1, p.2)

/-- Models Python `list.sort()` on lists of strings. Python's sort is a
stable sort by `strLe`; since equal strings are identical, any sorted
permutation is the same list, so insertion sort is a faithful model. -/
def pysort (l : List String) : List String := List.insertionSort strLe l

/-- Models `SIUnits.__init__` (which calls `_simplify`). -/
def mkSIUnits (numerator denominator : List String) : SIUnits :=
  let p := cancelUnits numerator denominator
  ⟨pysort p.1, pysort p.2⟩

/-- Models calling `_simplify` on an existing instance. -/
def SIUnits.simplify (u : SIUnits) : SIUnits := mkSIUnits u.numerator u.denominator

/-- Models `SIUnits.__members`: the tuple equality/hash is computed from. -/
def SIUnits.members (u : SIUnits) : List String × List String := (u.numerator, u.denominator)

/-- Models `SIUnits.__eq__` between two `SIUnits` instances: both sides are
re-simplified, then their member tuples are compared. -/
def SIUnits.eq (a b : SIUnits) : Bool := decide (a.simplify.members = b.simplify.members)

/-- Models `SIUnits.__hash__` up to the opaque Python `hash` of the member
tuple: the member tuple itself is returned, which is exactly the information
the Python hash is computed from. -/
def SIUnits.pyhash (u : SIUnits) : List String × List String := u.members

/-- Models `SIUnits.inverse`. -/
def SIUnits.inverse (u : SIUnits) : SIUnits := mkSIUnits u.denominator u.numerator

/-- Models `SIUnits.__mul__` in the type-correct case. -/
def SIUnits.mul (a b : SIUnits) : SIUnits :=
  mkSIUnits (a.numerator ++ b.numerator) (a.denominator ++ b.denominator)

/-- Models `SIUnits.__truediv__` in the type-correct case. -/
def SIUnits.truediv (a b : SIUnits) : SIUnits :=
  mkSIUnits (a.numerator ++ b.denominator) (a.denominator ++ b.numerator)

/-! ## Parsing (`expand_units`, `SIUnits.from_str`, lines 514-526 and 565-580) -/

/-- Models one iteration of the `expand_units` loop body on a chunk `u`:
if `u` contains a caret, `u.split('^')` must have exactly two parts
(otherwise the tuple unpacking raises `ValueError`), the second must parse as
an `int` `n`, and `range(0, n)` yields `max n 0` copies of the first part;
otherwise the chunk is a single token. -/
def expandOne (u : List Char) : Option (List String) :=
  if '^' ∈ u then
    match splitChar '^' u with
    | [x, nstr] =>
      match pyInt nstr with
      | some n => some (List.replicate n.toNat (String.mk x))
      | none => none
    | _ => none
  else some [String.mk u]

def expandTokens : List (List Char) → Option (List String)
| [] => some []
| u :: rest => do
  let e ← expandOne u
  let r ← expandTokens rest
  pure (e ++ r)

/-- Models `expand_units` (lines 565-580): the literal side `"1"` is the empty
token list; otherwise split on `'.'`, drop empty chunks, expand each chunk. -/
def expand_units (ustr : List Char) : Option (List String) :=
  if ustr = ['1'] then some []
  else expandTokens ((splitChar '.' ustr).filter (fun x => x.length > 0))

/-- The numerator/denominator character strings `from_str` feeds to
`expand_units`. Python computes `numer, denoms = s.split('/', maxsplit=1)`
and `denom = denoms.replace('/', '.')`; splitting on all slashes and
dot-joining everything after the first chunk produces the same two strings. -/
def fromStrSides (s : String) : List Char × List Char :=
  if '/' ∈ s.data then
    match splitChar '/' s.data with
    | [] => ([], [])
    | n :: ds => (n, joinChar '.' ds)
  else (s.data, [])

/-- Models `SIUnits.from_str`; `none` is a `ValueError` escaping from
`expand_units`. -/
def from_str (s : String) : Option SIUnits := do
  let nl ← expand_units (fromStrSides s).1
  let dl ← expand_units (fromStrSides s).2
  pure (mkSIUnits nl dl)

/-! ## Rendering (`condense_units`, `SIUnits.__str__`, lines 504-509, 548-563) -/

/-- Models the `condense_units` loop: `full` is the full list (Python takes
`unit_list.count(n)` over the whole list), `seen` is the `n_parsed` set, `out`
is `cond_output`. -/
def condenseAux (full : List String) : List String → String → List String → String
| [], out, _ => out
| n :: rest, out, seen =>
  if n ∈ seen then condenseAux full rest out seen
  else
    let out1 := if out.length > 0 then out ++ "." else out
    let c := full.count n
    let out2 := if c > 1 then out1 ++ n ++ "^" ++ natRepr c else out1 ++ n
    condenseAux full rest out2 (n :: seen)

def condense_units (l : List String) : String := condenseAux l l "" []

/-- Models `SIUnits.__str__`: re-simplify, then `NUMER/DENOM` when the
denominator is non-empty, else `NUMER`. -/
def SIUnits.str (u : SIUnits) : String :=
  let v := u.simplify
  if v.denominator.length > 0 then
    condense_units v.numerator ++ "/" ++ condense_units v.denominator
  else condense_units v.numerator

/-! ## Dynamically-typed operands (`__eq__`, `__mul__`, `__truediv__` guards)

The three dunder methods test `type(other) is type(self)`. `PyObj` models the
universe of Python values such an operand can range over: an `SIUnits`
instance or any value of a different runtime type. -/

inductive PyObj
| unit (u : SIUnits)
| pystr (s : String)
| pyint (n : Int)
| pynone
deriving DecidableEq

def PyObj.typeName : PyObj → String
| unit _ => "SIUnits"
| pystr _ => "str"
| pyint _ => "int"
| pynone => "NoneType"

/-- Models `SIUnits.__eq__` applied to an arbitrary operand: a non-`SIUnits`
operand compares unequal instead of raising. -/
def SIUnits.py_eq (u : SIUnits) (other : PyObj) : Bool :=
  match other with
  | .unit v => SIUnits.eq u v
  | _ => false

/-- Models `SIUnits.__mul__` applied to an arbitrary operand; `Except.error`
is the raised `TypeError`. -/
def SIUnits.py_mul (u : SIUnits) (other : PyObj) : Except String SIUnits :=
  match other with
  | .unit v => .ok (u.mul v)
  | o => .error (o.typeName ++ " is not a type of SIUnits")

/-- Models `SIUnits.__truediv__` applied to an arbitrary operand. -/
def SIUnits.py_truediv (u : SIUnits) (other : PyObj) : Except String SIUnits :=
  match other with
  | .unit v => .ok (u.truediv v)
  | o => .error (o.typeName ++ " is not a type of SIUnits")

/-! ## Ambiguity policy (code_generator.py lines 10-32) -/

def input_blacklist : List String :=
  ["radioactivity", "absorbed dose", "dose equivalent"]

def combo_whitelist : List (String × String × String) :=
  [ ("mass", "absorbed dose", "energy"),
    ("absorbed dose", "mass", "energy"),
    ("energy", "absorbed dose", "mass"),
    ("absorbed dose", "energy", "mass"),
    ("mass", "dose equivalent", "energy"),
    ("dose equivalent", "mass", "energy"),
    ("energy", "dose equivalent", "mass"),
    ("dose equivalent", "energy", "mass"),
    ("moment of inertia", "angular acceleration", "torque"),
    ("angular acceleration", "moment of inertia", "torque"),
    ("angular acceleration", "torque", "moment of inertia"),
    ("torque", "angular acceleration", "moment of inertia"),
    ("torque", "moment of inertia", "angular acceleration") ]

def output_blacklist : List String :=
  ["torque", "moment of inertia", "radioactivity", "absorbed dose", "dose equivalent"]

/-! ## Quantity catalog rows

A row of unit-type-definitions.csv, restricted to the columns the core
algorithms read (`name`, `category`, `si units`, `unit symbol`); the purely
descriptive columns feed only the string templates, which are out of scope. -/

structure QRow where
  name : String
  category : String
  si_units : String
  unit_symbol : String
deriving DecidableEq

/-! ## Conversion synthesizer (`find_unit_conversions`, lines 368-429)

A conversion rule is modelled by the quantity names and the operator; the
unit-symbol and code-name columns of the emitted tuple are derived from these
by lookup/renaming and feed only the templates. The `defaultdict`
`siunit_measure_lut` is modelled as an association list in key-insertion
order, which is how Python iterates a dict. -/

structure Conv where
  left : String
  operator : String
  right : String
  result : String
deriving DecidableEq

/-- `siunit_measure_lut[k].append(v)` on a `defaultdict(lambda: [])`. -/
def lutInsert (lut : List (SIUnits × List String)) (k : SIUnits) (v : String) :
    List (SIUnits × List String) :=
  match lut with
  | [] => [(k, [v])]
  | (k2, vs) :: rest =>
    if SIUnits.eq k2 k then (k2, vs ++ [v]) :: rest else (k2, vs) :: lutInsert rest k v

/-- Dict lookup (`lut[k]` / `k in lut`), by Python `==` on keys. -/
def lutFind (lut : List (SIUnits × List String)) (k : SIUnits) : Option (List String) :=
  match lut with
  | [] => none
  | (k2, vs) :: rest => if SIUnits.eq k2 k then some vs else lutFind rest k

/-- Models Python `str.strip()`: drop whitespace from both ends. -/
def pyStrip (l : List Char) : List Char :=
  ((l.dropWhile Char.isWhitespace).reverse.dropWhile Char.isWhitespace).reverse

/-- The lut-building loop of `find_unit_conversions`: rows with a non-blank
name are keyed by their parsed dimension. `none` is a `ValueError` escaping
from `SIUnits.from_str`. -/
def buildLut (acc : List (SIUnits × List String)) :
    List QRow → Option (List (SIUnits × List String))
| [] => some acc
| r :: rest =>
  if (pyStrip r.name.data).length > 0 then
    match from_str r.si_units with
    | none => none
    | some u => buildLut (lutInsert acc u r.name) rest
  else buildLut acc rest

/-- The `continue` condition of lines 389-391 / 411-413, as the source
spells it: not whitelisted, and some operand/result blacklisted. -/
def disallowed (a b r : String) : Prop :=
  (a, b, r) ∉ combo_whitelist ∧
    (a ∈ input_blacklist ∨ b ∈ input_blacklist ∨ r ∈ output_blacklist)

instance (a b r : String) : Decidable (disallowed a b r) := by
  unfold disallowed; infer_instance

/-- The innermost double loop over `lut[other_unit] x lut[mul_unit]` with the
blacklist/whitelist `continue` (lines 387-397 and 409-419). -/
def pairRules (this_name op : String) (other_names output_names : List String) : List Conv :=
  other_names.flatMap (fun other_name =>
    output_names.filterMap (fun output_name =>
      if disallowed this_name other_name output_name then none
      else some ⟨this_name, op, other_name, output_name⟩))

/-- The body of `for other_unit in siunit_measure_lut`: try the product, then
the quotient. -/
def convsForKey (thisU : SIUnits) (this_name : String) (lut : List (SIUnits × List String))
    (entry : SIUnits × List String) : List Conv :=
  (match lutFind lut (thisU.mul entry.1) with
   | some outs => pairRules this_name "*" entry.2 outs
   | none => []) ++
  (match lutFind lut (thisU.truediv entry.1) with
   | some outs => pairRules this_name "/" entry.2 outs
   | none => [])

/-- One iteration of the outer `for i, row in data.iterrows()` loop. -/
def convsForRow (lut : List (SIUnits × List String)) (r : QRow) : Option (List Conv) := do
  let thisU ← from_str r.si_units
  pure (lut.flatMap (convsForKey thisU r.name lut))

def convsGo (lut : List (SIUnits × List String)) : List QRow → Option (List Conv)
| [] => some []
| r :: rest => do
  let c ← convsForRow lut r
  let cs ← convsGo lut rest
  pure (c ++ cs)

/-- Models `find_unit_conversions` (lines 368-429), up to the out-of-scope
unit-test-recommendation side channel and the symbol/code-name columns. -/
def find_unit_conversions (rows : List QRow) : Option (List Conv) := do
  let lut ← buildLut [] rows
  convsGo lut rows

/-! ## Helper renamings (`capitalize`, `to_code_name`, lines 591-597) -/

/-- Models Python `str.capitalize`: first character upper-cased, the rest
lower-cased. -/
def pyCapitalize (s : String) : String :=
  match s.data with
  | [] => ""
  | c :: cs => String.mk (c.toUpper :: cs.map Char.toLower)

def to_code_name (n : String) : String :=
  String.join (((splitChar ' ' n.data).map String.mk).map pyCapitalize)

/-! ## Inverse synthesizer (`generate_inverse_unit_conversions`, lines 239-292)

One `INVERSE_CONVERSION_TEMPLATE` instantiation is modelled by the template
parameters that vary per rule; the test-recommendation side channel is an
out-of-scope diagnostic. `used_mods` is a set that receives at most one
element; it is modelled as a list. -/

structure InvRule where
  scalar_type : String
  code_right : String
  code_result : String
  right_symbol : String
  result_symbol : String
deriving DecidableEq

def concrete_types : List String :=
  [ "f64", "f32", "i64", "i32",
    "num_bigfloat::BigFloat",
    "num_complex::Complex32", "num_complex::Complex64" ]

def mkInvRule (src_name src_symbol : String) (r : QRow) (stype : String) : InvRule :=
  ⟨stype, to_code_name src_name, to_code_name r.name, src_symbol, r.unit_symbol⟩

/-- The scan loop of `generate_inverse_unit_conversions`: skip blacklisted
names without parsing (Python's `and` short-circuits), stop at the first row
whose parsed dimension equals the inverse, raise (`none`) if a considered
row's dimension expression is malformed. -/
def scanInverse (inv : SIUnits) : List QRow → Option (Option QRow)
| [] => some none
| r :: rest =>
  if r.name ∈ output_blacklist then scanInverse inv rest
  else
    match from_str r.si_units with
    | none => none
    | some u => if SIUnits.eq inv u then some (some r) else scanInverse inv rest

def generate_inverse_unit_conversions (data_row : QRow) (data : List QRow) :
    Option (List InvRule × List String) := do
  let src_units ← from_str data_row.si_units
  let found ← scanInverse src_units.inverse data
  match found with
  | some r =>
    pure (concrete_types.map (mkInvRule data_row.name data_row.unit_symbol r), [r.category])
  | none => pure ([], [])

/-! ## Lexical inversion (`inverse_check` and `rotate_string`, lines 294-366) -/

/-- Models `rotate_string` (lines 361-366). Python tests `pivot_key in text`
and `not text.startswith(pivot_key)` and then splits at the first occurrence;
`splitOnceSub` returns `some (before, after)` exactly when the pivot occurs,
with `before = []` exactly when `text` starts with the pivot. -/
def rotate_string (text pivot_key : String) : String :=
  match splitOnceSub pivot_key.data text.data with
  | some (a, b) =>
    if a = [] then String.mk (pivot_key.data ++ text.data)
    else String.mk (b ++ pivot_key.data ++ a)
  | none => String.mk (pivot_key.data ++ text.data)

/-- Suggested-quantity unit name (lines 321-324). -/
def suggested_unit_name (unit_name : String) : String :=
  if containsSub (" per ").data unit_name.data then rotate_string unit_name " per "
  else "inverse " ++ unit_name

/-- Suggested-quantity unit symbol (lines 325-328). -/
def suggested_unit_symbol (sym : String) : String :=
  if (sym.data.drop 1).contains 'p' then rotate_string sym "p"
  else "per_" ++ sym

/-- Inverted measurement-unit-row unit name (line 348). -/
def inverse_meas_unit_name (n : String) : String :=
  if containsSub (" per ").data n.data then rotate_string n " per "
  else "inverse " ++ n

/-- Inverted measurement-unit-row unit symbol (line 349): note the pivot is
the space-padded `" p "`, while the guard still tests for a bare `'p'`. -/
def inverse_meas_unit_symbol (sym : String) : String :=
  if (sym.data.drop 1).contains 'p' then rotate_string sym " p "
  else "per_" ++ sym

/-! ## Inverted measurement-unit rows (`inverse_check` lines 340-353)

The slope/offset coefficients are numpy floats; the loop inspects them only
through `is None`, `isfinite` and `== 0`, so they are modelled by an
inductive of the relevant value classes (a finite rational, the two
infinities, NaN) inside `Option` for `None`. -/

inductive PyNum
| finite (q : ℚ)
| nan
| posInf
| negInf
deriving DecidableEq

def PyNum.isFinite : PyNum → Bool
| finite _ => true
| _ => false

/-- Models `float(x) != 0`; NaN and the infinities compare unequal to 0. -/
def PyNum.ne0 : PyNum → Bool
| finite q => decide (q ≠ 0)
| _ => true

structure MeasRow where
  name : String
  unit_name : String
  unit_symbol : String
  slope : PyNum
  offset : Option PyNum
  inverse_slope : PyNum
deriving DecidableEq

/-- The `continue` condition of line 344:
`offset is not None and isfinite(offset) and offset != 0`. -/
def skip_offset (o : Option PyNum) : Bool :=
  match o with
  | none => false
  | some v => v.isFinite && v.ne0

/-- The tab-joined inverse measurement row of lines 346-353: name column is
the suggested inverse quantity name, coefficients are
`(inverse slope, <blank>, slope)`. -/
structure InvMeasRow where
  name : String
  unit_name : String
  unit_symbol : String
  slope : PyNum
  offset : Option PyNum
  inverse_slope : PyNum
deriving DecidableEq

def mkInvMeasRow (inverse_name : String) (m : MeasRow) : InvMeasRow :=
  ⟨inverse_name, inverse_meas_unit_name m.unit_name, inverse_meas_unit_symbol m.unit_symbol,
    m.inverse_slope, none, m.slope⟩

def invMeasGo (inverse_name : String) : List MeasRow → List InvMeasRow
| [] => []
| m :: rest =>
  if skip_offset m.offset then invMeasGo inverse_name rest
  else mkInvMeasRow inverse_name m :: invMeasGo inverse_name rest

/-- The `for _, measures in measurement_units[measurement_units['name'] ==
row['name']].iterrows()` loop for one quantity that received a suggested
inverse. -/
def inverse_meas_rows (inverse_name qname : String) (measurement_units : List MeasRow) :
    List InvMeasRow :=
  invMeasGo inverse_name (measurement_units.filter (fun m => m.name = qname))

/-! # Proof development -/

/-! ## The string order -/

theorem charLeB_refl : ∀ l : List Char, charLeB l l = true
| [] => rfl
| a :: as => by simp [charLeB, charLeB_refl as]

theorem charLeB_total : ∀ as bs : List Char, charLeB as bs = true ∨ charLeB bs as = true
| [], _ => Or.inl rfl
| _ :: _, [] => Or.inr rfl
| a :: as, b :: bs => by
  by_cases hab : a = b
  · subst hab
    simpa [charLeB] using charLeB_total as bs
  · rcases lt_trichotomy a b with h | h | h
    · exact Or.inl (by simp [charLeB, hab, h])
    · exact absurd h hab
    · exact Or.inr (by simp [charLeB, Ne.symm hab, h])

theorem charLeB_trans : ∀ as bs cs : List Char,
    charLeB as bs = true → charLeB bs cs = true → charLeB as cs = true
| [], _, _, _, _ => rfl
| _ :: _, [], _, h, _ => by simp [charLeB] at h
| _ :: _, _ :: _, [], _, h => by simp [charLeB] at h
| a :: as, b :: bs, c :: cs, h1, h2 => by
  by_cases hab : a = b <;> by_cases hbc : b = c
  · subst hab; subst hbc
    simp only [charLeB, if_pos rfl] at h1 h2 ⊢
    exact charLeB_trans as bs cs h1 h2
  · subst hab
    simpa [charLeB, hbc] using h2
  · subst hbc
    simpa [charLeB, hab] using h1
  · simp only [charLeB, if_neg hab, decide_eq_true_eq] at h1
    simp only [charLeB, if_neg hbc, decide_eq_true_eq] at h2
    have hac : a < c := lt_trans h1 h2
    simp [charLeB, ne_of_lt hac, hac]

theorem charLeB_antisymm : ∀ as bs : List Char,
    charLeB as bs = true → charLeB bs as = true → as = bs
| [], [], _, _ => rfl
| [], _ :: _, _, h => by simp [charLeB] at h
| _ :: _, [], h, _ => by simp [charLeB] at h
| a :: as, b :: bs, h1, h2 => by
  by_cases hab : a = b
  · subst hab
    simp only [charLeB, if_pos rfl] at h1 h2
    exact congrArg _ (charLeB_antisymm as bs h1 h2)
  · simp only [charLeB, if_neg hab, decide_eq_true_eq] at h1
    simp only [charLeB, if_neg (Ne.symm hab), decide_eq_true_eq] at h2
    exact absurd h2 (lt_asymm h1)

instance : IsTotal String strLe := ⟨fun a b => charLeB_total a.data b.data⟩

instance : IsTrans String strLe := ⟨fun a b c => charLeB_trans a.data b.data c.data⟩

instance : IsAntisymm String strLe :=
  ⟨fun a b h1 h2 => by
    cases a; cases b
    exact congrArg String.mk (charLeB_antisymm _ _ h1 h2)⟩

instance : IsRefl String strLe := ⟨fun a => charLeB_refl a.data⟩

/-! ## `pysort` -/

theorem pysort_perm (l : List String) : List.Perm (pysort l) l := List.perm_insertionSort strLe l

theorem pysort_sorted (l : List String) : List.Sorted strLe (pysort l) :=
  List.sorted_insertionSort strLe l

theorem sorted_eq_of_perm {l1 l2 : List String} (hp : List.Perm l1 l2)
    (h1 : List.Sorted strLe l1) (h2 : List.Sorted strLe l2) : l1 = l2 :=
  List.eq_of_perm_of_sorted hp h1 h2

theorem pysort_of_sorted {l : List String} (h : List.Sorted strLe l) : pysort l = l :=
  sorted_eq_of_perm (pysort_perm l) (pysort_sorted l) h

theorem pysort_eq_of_perm {l1 l2 : List String} (hp : List.Perm l1 l2) : pysort l1 = pysort l2 :=
  sorted_eq_of_perm ((pysort_perm l1).trans (hp.trans (pysort_perm l2).symm))
    (pysort_sorted l1) (pysort_sorted l2)

theorem pysort_coe (l : List String) : (↑(pysort l) : Multiset String) = ↑l :=
  Multiset.coe_eq_coe.mpr (pysort_perm l)

/-! ## `cancelUnits` -/

theorem cancelUnits_eq_diff : ∀ n d : List String, cancelUnits n d = (n.diff d, d.diff n)
| [], d => by simp [cancelUnits]
| x :: ns, d => by
  by_cases hx : x ∈ d
  · rw [cancelUnits, if_pos hx, cancelUnits_eq_diff ns (d.erase x)]
    rw [List.cons_diff, if_pos hx, List.diff_cons]
  · rw [cancelUnits, if_neg hx, cancelUnits_eq_diff ns d]
    simp only [List.cons_diff, if_neg hx, List.diff_cons, List.erase_of_not_mem hx]

theorem count_diff_list (a : String) (l1 l2 : List String) :
    (l1.diff l2).count a = l1.count a - l2.count a := by
  have h := congrArg (Multiset.count a) (Multiset.coe_sub l1 l2)
  rw [Multiset.count_sub] at h
  simpa using h.symm

theorem diff_disjoint (n d : List String) : ∀ t ∈ n.diff d, t ∉ d.diff n := by
  intro t ht hmem
  rw [← List.count_pos_iff] at ht hmem
  rw [count_diff_list] at ht hmem
  omega

theorem cancelUnits_of_disjoint : ∀ n d : List String, (∀ t ∈ n, t ∉ d) →
    cancelUnits n d = (n, d)
| [], d, _ => by simp [cancelUnits]
| x :: ns, d, h => by
  have hx : x ∉ d := h x (List.mem_cons_self x ns)
  rw [cancelUnits, if_neg hx, cancelUnits_of_disjoint ns d (fun t ht => h t (List.mem_cons_of_mem x ht))]

/-! ## Canonical form of `mkSIUnits` -/

/-- The canonical-form invariant of the specification: no token occurs on
both sides, and both sides are sorted. -/
def CanonicalForm (u : SIUnits) : Prop :=
  (∀ t ∈ u.numerator, t ∉ u.denominator) ∧
    List.Sorted strLe u.numerator ∧ List.Sorted strLe u.denominator

instance (u : SIUnits) : Decidable (CanonicalForm u) := by
  unfold CanonicalForm; infer_instance

theorem mkSIUnits_canonicalForm (n d : List String) : CanonicalForm (mkSIUnits n d) := by
  refine ⟨?_, ?_, ?_⟩
  · intro t ht hmem
    simp only [mkSIUnits, cancelUnits_eq_diff] at ht hmem
    rw [(pysort_perm _).mem_iff] at ht hmem
    exact diff_disjoint n d t ht hmem
  · exact pysort_sorted _
  · exact pysort_sorted _

theorem canonicalForm_simplify {u : SIUnits} (h : CanonicalForm u) : u.simplify = u := by
  obtain ⟨hdisj, hsn, hsd⟩ := h
  rw [SIUnits.simplify, mkSIUnits, cancelUnits_of_disjoint _ _ hdisj]
  cases u
  simp [pysort_of_sorted hsn, pysort_of_sorted hsd]

theorem mkSIUnits_simplify (n d : List String) : (mkSIUnits n d).simplify = mkSIUnits n d :=
  canonicalForm_simplify (mkSIUnits_canonicalForm n d)

theorem members_inj {a b : SIUnits} : a.members = b.members ↔ a = b := by
  cases a; cases b
  simp [SIUnits.members]

theorem eq_true_iff (a b : SIUnits) : SIUnits.eq a b = true ↔ a.simplify = b.simplify := by
  rw [SIUnits.eq, decide_eq_true_eq, members_inj]

theorem eq_iff_of_simplify {a b : SIUnits} (ha : a.simplify = a) (hb : b.simplify = b) :
    (SIUnits.eq a b = true ↔ a = b) := by
  rw [eq_true_iff, ha, hb]

theorem eq_refl_true (a : SIUnits) : SIUnits.eq a a = true := by
  rw [eq_true_iff]

/-! ## Multiset views of the algebra -/

theorem mkSIUnits_num_coe (n d : List String) :
    (↑(mkSIUnits n d).numerator : Multiset String) = (↑n : Multiset String) - ↑d := by
  rw [mkSIUnits, cancelUnits_eq_diff]
  rw [pysort_coe]
  exact (Multiset.coe_sub n d).symm

theorem mkSIUnits_den_coe (n d : List String) :
    (↑(mkSIUnits n d).denominator : Multiset String) = (↑d : Multiset String) - ↑n := by
  rw [mkSIUnits, cancelUnits_eq_diff]
  rw [pysort_coe]
  exact (Multiset.coe_sub d n).symm

theorem ms_sub_eq (A B C D : Multiset String) :
    (A + B) - (C + D) = (A + (B - D)) - (C + (D - B)) := by
  ext a
  simp only [Multiset.count_sub, Multiset.count_add]
  omega

theorem ms_balance (N D : Multiset String) : (N + (D - N)) - (D + (N - D)) = 0 := by
  ext a
  simp only [Multiset.count_sub, Multiset.count_add, Multiset.count_zero]
  omega

theorem mkSIUnits_eq_of_coe {n1 d1 n2 d2 : List String}
    (hn : (↑n1 : Multiset String) - ↑d1 = (↑n2 : Multiset String) - ↑d2)
    (hd : (↑d1 : Multiset String) - ↑n1 = (↑d2 : Multiset String) - ↑n2) :
    mkSIUnits n1 d1 = mkSIUnits n2 d2 := by
  have h1 : ((n1.diff d1 : List String) : Multiset String) = ↑(n2.diff d2) := by
    rw [← Multiset.coe_sub, ← Multiset.coe_sub]
    exact hn
  have h2 : ((d1.diff n1 : List String) : Multiset String) = ↑(d2.diff n2) := by
    rw [← Multiset.coe_sub, ← Multiset.coe_sub]
    exact hd
  simp only [mkSIUnits, cancelUnits_eq_diff]
  rw [pysort_eq_of_perm (Multiset.coe_eq_coe.mp h1), pysort_eq_of_perm (Multiset.coe_eq_coe.mp h2)]

/-! ## Shape of `from_str` results -/

theorem from_str_shape {s : String} {v : SIUnits} (h : from_str s = some v) :
    ∃ nl dl, expand_units (fromStrSides s).1 = some nl ∧
      expand_units (fromStrSides s).2 = some dl ∧ v = mkSIUnits nl dl := by
  unfold from_str at h
  simp only [bind, Option.bind_eq_some, pure, Option.some.injEq] at h
  obtain ⟨nl, hn, dl, hd, hv⟩ := h
  exact ⟨nl, dl, hn, hd, hv.symm⟩

theorem from_str_canonicalForm {s : String} {v : SIUnits} (h : from_str s = some v) :
    CanonicalForm v := by
  obtain ⟨nl, dl, _, _, hv⟩ := from_str_shape h
  rw [hv]
  exact mkSIUnits_canonicalForm nl dl

theorem from_str_simplify {s : String} {v : SIUnits} (h : from_str s = some v) :
    v.simplify = v :=
  canonicalForm_simplify (from_str_canonicalForm h)

/-! ## Claim theorems: the dimension-vector algebra -/

/-- C2: every dimension vector produced by parse (`from_str`), multiply,
divide, or invert satisfies the canonical-form invariant — no token appears
in both numerator and denominator and both token lists are sorted — and
`__eq__`/`__hash__` are computed only over this canonical form: equality
holds exactly when the canonicalizations agree, and the hash input of
canonical vectors is determined by equality. -/
theorem claim_C2 :
    (∀ s v, from_str s = some v → CanonicalForm v)
    ∧ (∀ a b : SIUnits, CanonicalForm (a.mul b))
    ∧ (∀ a b : SIUnits, CanonicalForm (a.truediv b))
    ∧ (∀ a : SIUnits, CanonicalForm a.inverse)
    ∧ (∀ a b : SIUnits, SIUnits.eq a b = true ↔ a.simplify = b.simplify)
    ∧ (∀ a b : SIUnits, SIUnits.eq a b = true → CanonicalForm a → CanonicalForm b →
        SIUnits.pyhash a = SIUnits.pyhash b) := by
  refine ⟨fun s v h => from_str_canonicalForm h,
    fun a b => mkSIUnits_canonicalForm _ _,
    fun a b => mkSIUnits_canonicalForm _ _,
    fun a => mkSIUnits_canonicalForm _ _,
    eq_true_iff,
    fun a b heq ha hb => ?_⟩
  have h := (eq_true_iff a b).mp heq
  rw [canonicalForm_simplify ha, canonicalForm_simplify hb] at h
  rw [h]

/-- Witness for C2 at concrete inputs: the vector parsed from `"kg.m/s^2"` is
in canonical form, and the hash conjunct applies to a concrete pair. -/
theorem claim_C2_witness :
    CanonicalForm (⟨["kg", "m"], ["s", "s"]⟩ : SIUnits)
    ∧ SIUnits.pyhash ⟨["m"], []⟩ = SIUnits.pyhash ⟨["m"], []⟩ :=
  ⟨claim_C2.1 "kg.m/s^2" ⟨["kg", "m"], ["s", "s"]⟩ (by decide),
    claim_C2.2.2.2.2.2 ⟨["m"], []⟩ ⟨["m"], []⟩ (by decide) (by decide) (by decide)⟩

/-- C7: for every dimension vector `v`, `multiply(v, invert(v))`
canonicalizes to the empty vector: both sides of the product are empty. -/
theorem claim_C7 (u : SIUnits) :
    (u.mul u.inverse).numerator = [] ∧ (u.mul u.inverse).denominator = [] := by
  constructor
  · refine (Multiset.coe_eq_zero _).mp ?_
    rw [SIUnits.mul, mkSIUnits_num_coe, ← Multiset.coe_add, ← Multiset.coe_add,
      SIUnits.inverse, mkSIUnits_num_coe, mkSIUnits_den_coe]
    exact ms_balance _ _
  · refine (Multiset.coe_eq_zero _).mp ?_
    rw [SIUnits.mul, mkSIUnits_den_coe, ← Multiset.coe_add, ← Multiset.coe_add,
      SIUnits.inverse, mkSIUnits_num_coe, mkSIUnits_den_coe]
    exact ms_balance _ _

/-- C8: for all dimension vectors `a` and `b`, `divide(a, b)` and
`multiply(a, invert(b))` produce the very same canonical value. -/
theorem claim_C8 (a b : SIUnits) : a.truediv b = a.mul b.inverse := by
  rw [SIUnits.truediv, SIUnits.mul, SIUnits.inverse]
  apply mkSIUnits_eq_of_coe
  · simp only [← Multiset.coe_add, mkSIUnits_num_coe, mkSIUnits_den_coe]
    exact ms_sub_eq _ _ _ _
  · simp only [← Multiset.coe_add, mkSIUnits_num_coe, mkSIUnits_den_coe]
    exact ms_sub_eq _ _ _ _

/-- C10: comparing a dimension vector against a value of any other runtime
type returns `False` instead of raising, while `*` and `/` with such an
operand raise a `TypeError`: equality is total over arbitrary operands, the
algebraic operations are not. -/
theorem claim_C10 (v : SIUnits) (x : PyObj) (h : ∀ u, x ≠ PyObj.unit u) :
    SIUnits.py_eq v x = false
    ∧ (∃ msg, SIUnits.py_mul v x = Except.error msg)
    ∧ (∃ msg, SIUnits.py_truediv v x = Except.error msg) := by
  cases x with
  | unit u => exact absurd rfl (h u)
  | pystr s => exact ⟨rfl, ⟨_, rfl⟩, ⟨_, rfl⟩⟩
  | pyint n => exact ⟨rfl, ⟨_, rfl⟩, ⟨_, rfl⟩⟩
  | pynone => exact ⟨rfl, ⟨_, rfl⟩, ⟨_, rfl⟩⟩

/-- Witness for C10 at a concrete non-`SIUnits` operand. -/
theorem claim_C10_witness :
    SIUnits.py_eq ⟨[], []⟩ (PyObj.pystr "m") = false
    ∧ (∃ msg, SIUnits.py_mul ⟨[], []⟩ (PyObj.pystr "m") = Except.error msg)
    ∧ (∃ msg, SIUnits.py_truediv ⟨[], []⟩ (PyObj.pystr "m") = Except.error msg) :=
  claim_C10 ⟨[], []⟩ (PyObj.pystr "m") (fun _ h => PyObj.noConfusion h)

/-! ## Claim C6: invertibility filter on measurement-unit rows -/

/-- The predicate of the specification: the offset coefficient is exactly
zero, or is not a finite number. -/
def offset_zero_or_not_finite (o : Option PyNum) : Prop :=
  o = some (PyNum.finite 0) ∨ ∀ q : ℚ, o ≠ some (PyNum.finite q)

theorem invMeasGo_eq (nm : String) : ∀ l : List MeasRow,
    invMeasGo nm l = (l.filter (fun m => !skip_offset m.offset)).map (mkInvMeasRow nm)
| [] => rfl
| m :: rest => by
  by_cases h : skip_offset m.offset
  · simp [invMeasGo, h, invMeasGo_eq nm rest, List.filter_cons]
  · simp [invMeasGo, h, invMeasGo_eq nm rest, List.filter_cons]

/-- C6: for every measurement-unit row of a quantity that received a
suggested inverse, an inverted row is proposed precisely when the offset
coefficient is exactly zero or not a finite number (Python `None` included
among the non-finite values); rows failing the test are skipped by a plain
`continue` — the loop is total and nothing is raised. -/
theorem claim_C6 :
    (∀ inverse_name qname mus, inverse_meas_rows inverse_name qname mus =
      ((mus.filter (fun m => m.name = qname)).filter
        (fun m => !skip_offset m.offset)).map (mkInvMeasRow inverse_name))
    ∧ (∀ o : Option PyNum, skip_offset o = false ↔ offset_zero_or_not_finite o) := by
  constructor
  · intro inverse_name qname mus
    exact invMeasGo_eq inverse_name _
  · intro o
    match o with
    | none =>
      simp only [skip_offset, offset_zero_or_not_finite]
      refine ⟨fun _ => Or.inr (fun q h => by cases h), fun _ => trivial⟩
    | some (PyNum.finite q) =>
      simp only [skip_offset, PyNum.isFinite, PyNum.ne0, offset_zero_or_not_finite,
        Bool.true_and, decide_eq_false_iff_not, not_not, Option.some.injEq]
      constructor
      · intro hq
        exact Or.inl (by rw [hq])
      · rintro (h | h)
        · cases h; rfl
        · exact absurd rfl (h q)
    | some PyNum.nan =>
      simp only [skip_offset, PyNum.isFinite, PyNum.ne0, offset_zero_or_not_finite,
        Bool.false_and]
      exact ⟨fun _ => Or.inr (fun q h => by cases h), fun _ => trivial⟩
    | some PyNum.posInf =>
      simp only [skip_offset, PyNum.isFinite, PyNum.ne0, offset_zero_or_not_finite,
        Bool.false_and]
      exact ⟨fun _ => Or.inr (fun q h => by cases h), fun _ => trivial⟩
    | some PyNum.negInf =>
      simp only [skip_offset, PyNum.isFinite, PyNum.ne0, offset_zero_or_not_finite,
        Bool.false_and]
      exact ⟨fun _ => Or.inr (fun q h => by cases h), fun _ => trivial⟩

/-! ## Claim C3: first-match policy of the inverse synthesizer -/

theorem scanInverse_first (inv : SIUnits) :
    ∀ (pre : List QRow) (R : QRow) (post : List QRow),
    (∀ r ∈ pre, r.name ∈ output_blacklist ∨
      ∃ d, from_str r.si_units = some d ∧ SIUnits.eq inv d = false) →
    R.name ∉ output_blacklist →
    ∀ {dR : SIUnits}, from_str R.si_units = some dR → SIUnits.eq inv dR = true →
    scanInverse inv (pre ++ R :: post) = some (some R)
| [], R, post, _, hbl, dR, hdR, heq => by
  rw [List.nil_append, scanInverse, if_neg hbl, hdR]
  simp [heq]
| r :: pre, R, post, hskip, hbl, dR, hdR, heq => by
  rw [List.cons_append, scanInverse]
  have hrec := scanInverse_first inv pre R post
    (fun x hx => hskip x (List.mem_cons_of_mem r hx)) hbl hdR heq
  by_cases hb : r.name ∈ output_blacklist
  · rw [if_pos hb]
    exact hrec
  · rw [if_neg hb]
    rcases hskip r (List.mem_cons_self r pre) with h | ⟨d, hd, hne⟩
    · exact absurd h hb
    · rw [hd]
      simp only [hne]
      simpa using hrec

/-- C3: for a quantity `Q`, the inverse synthesizer scans the catalog in
order; at the first quantity `R` that is not output-blacklisted and whose
dimension equals `invert(Q.dim)` it emits exactly one inverse rule per entry
of the fixed seven-element numeric-representation list and stops — rows after
the match contribute nothing, whatever they contain. -/
theorem claim_C3 (Q : QRow) (rows pre post : List QRow) (R : QRow) (dQ dR : SIUnits)
    (hrows : rows = pre ++ R :: post)
    (hdQ : from_str Q.si_units = some dQ)
    (hskip : ∀ r ∈ pre, r.name ∈ output_blacklist ∨
      ∃ d, from_str r.si_units = some d ∧ SIUnits.eq dQ.inverse d = false)
    (hbl : R.name ∉ output_blacklist)
    (hdR : from_str R.si_units = some dR)
    (heq : SIUnits.eq dQ.inverse dR = true) :
    generate_inverse_unit_conversions Q rows =
      some (concrete_types.map (mkInvRule Q.name Q.unit_symbol R), [R.category])
    ∧ (concrete_types.map (mkInvRule Q.name Q.unit_symbol R)).length = 7 := by
  subst hrows
  refine ⟨?_, rfl⟩
  unfold generate_inverse_unit_conversions
  rw [hdQ]
  have hscan := scanInverse_first dQ.inverse pre R post hskip hbl hdR heq
  simp only [bind, Option.bind, hscan]
  rfl

/-- Witness for C3: `frequency` (`1/s`) finds `time` (`s`) as its inverse at
the head of a one-row catalog and emits the seven rules. -/
theorem claim_C3_witness :
    generate_inverse_unit_conversions ⟨"frequency", "frequency", "1/s", "Hz"⟩
        [⟨"time", "base", "s", "s"⟩] =
      some (concrete_types.map (mkInvRule "frequency" "Hz" ⟨"time", "base", "s", "s"⟩),
        ["base"])
    ∧ (concrete_types.map
        (mkInvRule "frequency" "Hz" ⟨"time", "base", "s", "s"⟩)).length = 7 :=
  claim_C3 ⟨"frequency", "frequency", "1/s", "Hz"⟩ _ [] []
    ⟨"time", "base", "s", "s"⟩ ⟨[], ["s"]⟩ ⟨["s"], []⟩ rfl (by decide)
    (by intro r hr; cases hr) (by decide) (by decide) (by decide)

/-! ## Claim C1: the admission filter of the conversion synthesizer -/

/-- All keys of the lut are canonical (they are `from_str` results). -/
def LutCanon (lut : List (SIUnits × List String)) : Prop :=
  ∀ e ∈ lut, SIUnits.simplify e.1 = e.1

/-- No two entries carry the same key: a Python dict cannot. -/
def LutNodup (lut : List (SIUnits × List String)) : Prop :=
  lut.Pairwise (fun e1 e2 => e1.1 ≠ e2.1)

theorem lutFind_mem : ∀ {lut : List (SIUnits × List String)} {k vs},
    lutFind lut k = some vs → ∃ k2, (k2, vs) ∈ lut ∧ SIUnits.eq k2 k = true
| [], k, vs, h => by cases h
| (k2, vs2) :: rest, k, vs, h => by
  rw [lutFind] at h
  by_cases he : SIUnits.eq k2 k = true
  · rw [if_pos he] at h
    cases Option.some.inj h
    exact ⟨k2, List.mem_cons_self _ _, he⟩
  · rw [if_neg (by simpa using he)] at h
    obtain ⟨k3, hm, he3⟩ := lutFind_mem h
    exact ⟨k3, List.mem_cons_of_mem _ hm, he3⟩

theorem lutFind_of_mem : ∀ {lut : List (SIUnits × List String)} {k vs},
    LutCanon lut → LutNodup lut → (k, vs) ∈ lut → k.simplify = k →
    lutFind lut k = some vs
| [], k, vs, _, _, hm, _ => by cases hm
| (k2, vs2) :: rest, k, vs, hc, hn, hm, hk => by
  rw [lutFind]
  rcases List.mem_cons.mp hm with h | h
  · injection h with h1 h2
    subst h1
    subst h2
    rw [if_pos (eq_refl_true k)]
  · have hk2 : SIUnits.eq k2 k = true → k2 = k := by
      intro he
      have hk2c : k2.simplify = k2 := hc (k2, vs2) (List.mem_cons_self _ _)
      exact (eq_iff_of_simplify hk2c hk).mp he
    have hne : k2 ≠ k := (List.pairwise_cons.mp hn).1 (k, vs) h
    rw [if_neg (fun he => hne (hk2 he))]
    exact lutFind_of_mem (fun e he => hc e (List.mem_cons_of_mem _ he))
      (List.pairwise_cons.mp hn).2 h hk

theorem lutInsert_canon {lut k v} (hc : LutCanon lut) (hk : SIUnits.simplify k = k) :
    LutCanon (lutInsert lut k v) := by
  induction lut with
  | nil => intro e he; rcases List.mem_singleton.mp he with rfl; exact hk
  | cons e2 rest ih =>
    obtain ⟨k2, vs2⟩ := e2
    rw [lutInsert]
    by_cases he : SIUnits.eq k2 k = true
    · rw [if_pos he]
      intro e hm
      rcases List.mem_cons.mp hm with rfl | hm
      · exact hc (k2, vs2) (List.mem_cons_self _ _)
      · exact hc e (List.mem_cons_of_mem _ hm)
    · rw [if_neg (by simpa using he)]
      intro e hm
      rcases List.mem_cons.mp hm with rfl | hm
      · exact hc (k2, vs2) (List.mem_cons_self _ _)
      · exact ih (fun x hx => hc x (List.mem_cons_of_mem _ hx)) e hm

theorem lutInsert_key_mem {lut : List (SIUnits × List String)} {k v} :
    ∀ e ∈ lutInsert lut k v, e.1 = k ∨ ∃ vs0, (e.1, vs0) ∈ lut := by
  induction lut with
  | nil =>
    intro e he
    rcases List.mem_singleton.mp he with rfl
    exact Or.inl rfl
  | cons e2 rest ih =>
    obtain ⟨k2, vs2⟩ := e2
    rw [lutInsert]
    by_cases he : SIUnits.eq k2 k = true
    · rw [if_pos he]
      intro e hm
      rcases List.mem_cons.mp hm with rfl | hm
      · exact Or.inr ⟨vs2, List.mem_cons_self _ _⟩
      · exact Or.inr ⟨e.2, List.mem_cons_of_mem _ hm⟩
    · rw [if_neg (by simpa using he)]
      intro e hm
      rcases List.mem_cons.mp hm with rfl | hm
      · exact Or.inr ⟨vs2, List.mem_cons_self _ _⟩
      · rcases ih e hm with h | ⟨vs0, h⟩
        · exact Or.inl h
        · exact Or.inr ⟨vs0, List.mem_cons_of_mem _ h⟩

theorem lutInsert_nodup {lut k v} (hc : LutCanon lut)
    (hn : LutNodup lut) : LutNodup (lutInsert lut k v) := by
  induction lut with
  | nil => exact List.pairwise_singleton _ _
  | cons e2 rest ih =>
    obtain ⟨k2, vs2⟩ := e2
    rw [lutInsert]
    obtain ⟨hhead, htail⟩ := List.pairwise_cons.mp hn
    by_cases he : SIUnits.eq k2 k = true
    · rw [if_pos he]
      exact List.pairwise_cons.mpr ⟨hhead, htail⟩
    · rw [if_neg (by simpa using he)]
      refine List.pairwise_cons.mpr ⟨?_, ih (fun x hx => hc x (List.mem_cons_of_mem _ hx)) htail⟩
      intro e hm
      rcases lutInsert_key_mem e hm with h1 | ⟨vs0, h1⟩
      · intro hcontra
        apply he
        have hc2 : k2 = k := by
          rw [show k2 = e.1 from hcontra, h1]
        rw [hc2]
        exact eq_refl_true k
      · exact fun hcontra => hhead (e.1, vs0) h1 (by rw [show k2 = e.1 from hcontra])

theorem lutFind_lutInsert_self : ∀ (lut : List (SIUnits × List String)) (k : SIUnits) (v : String),
    ∃ vs, lutFind (lutInsert lut k v) k = some vs ∧ v ∈ vs
| [], k, v => by
  rw [lutInsert, lutFind, if_pos (eq_refl_true k)]
  exact ⟨[v], rfl, List.mem_singleton_self v⟩
| (k2, vs2) :: rest, k, v => by
  rw [lutInsert]
  by_cases he : SIUnits.eq k2 k = true
  · rw [if_pos he, lutFind, if_pos he]
    exact ⟨vs2 ++ [v], rfl, List.mem_append_right _ (List.mem_singleton_self v)⟩
  · rw [if_neg (by simpa using he), lutFind, if_neg (by simpa using he)]
    exact lutFind_lutInsert_self rest k v

theorem lutFind_lutInsert_mono : ∀ {lut : List (SIUnits × List String)} {d vs} (k : SIUnits)
    (v : String), lutFind lut d = some vs →
    ∃ vs2, lutFind (lutInsert lut k v) d = some vs2 ∧ vs ⊆ vs2
| [], d, vs, k, v, h => by cases h
| (k2, vs2) :: rest, d, vs, k, v, h => by
  rw [lutFind] at h
  rw [lutInsert]
  by_cases hek : SIUnits.eq k2 k = true
  · rw [if_pos hek, lutFind]
    by_cases hed : SIUnits.eq k2 d = true
    · rw [if_pos hed] at h ⊢
      cases Option.some.inj h
      exact ⟨vs2 ++ [v], rfl, List.subset_append_left _ _⟩
    · rw [if_neg (by simpa using hed)] at h ⊢
      exact ⟨vs, h, fun x hx => hx⟩
  · rw [if_neg (by simpa using hek), lutFind]
    by_cases hed : SIUnits.eq k2 d = true
    · rw [if_pos hed] at h ⊢
      cases Option.some.inj h
      exact ⟨vs2, rfl, fun x hx => hx⟩
    · rw [if_neg (by simpa using hed)] at h ⊢
      exact lutFind_lutInsert_mono k v h

theorem buildLut_invariant : ∀ {rows : List QRow} {acc lut},
    buildLut acc rows = some lut → LutCanon acc → LutNodup acc →
    LutCanon lut ∧ LutNodup lut
| [], acc, lut, h, hc, hn => by
  cases Option.some.inj h
  exact ⟨hc, hn⟩
| r :: rest, acc, lut, h, hc, hn => by
  rw [buildLut] at h
  by_cases ht : (pyStrip r.name.data).length > 0
  · rw [if_pos ht] at h
    cases hu : from_str r.si_units with
    | none => rw [hu] at h; cases h
    | some u =>
      rw [hu] at h
      have huc : u.simplify = u := from_str_simplify hu
      exact buildLut_invariant h (lutInsert_canon hc huc) (lutInsert_nodup hc hn)
  · rw [if_neg ht] at h
    exact buildLut_invariant h hc hn

theorem buildLut_mono : ∀ {rows : List QRow} {acc lut d vs x},
    buildLut acc rows = some lut → lutFind acc d = some vs → x ∈ vs →
    ∃ vs2, lutFind lut d = some vs2 ∧ x ∈ vs2
| [], acc, lut, d, vs, x, h, hf, hx => by
  cases Option.some.inj h
  exact ⟨vs, hf, hx⟩
| r :: rest, acc, lut, d, vs, x, h, hf, hx => by
  rw [buildLut] at h
  by_cases ht : (pyStrip r.name.data).length > 0
  · rw [if_pos ht] at h
    cases hu : from_str r.si_units with
    | none => rw [hu] at h; cases h
    | some u =>
      rw [hu] at h
      obtain ⟨vs2, hf2, hsub⟩ := lutFind_lutInsert_mono u r.name hf
      exact buildLut_mono h hf2 (hsub hx)
  · rw [if_neg ht] at h
    exact buildLut_mono h hf hx

theorem buildLut_find : ∀ {rows : List QRow} {acc lut},
    buildLut acc rows = some lut →
    ∀ r ∈ rows, (pyStrip r.name.data).length > 0 →
    ∀ {d}, from_str r.si_units = some d →
    ∃ vs, lutFind lut d = some vs ∧ r.name ∈ vs
| [], acc, lut, _, r, hr, _, _, _ => by cases hr
| r0 :: rest, acc, lut, h, r, hr, ht, d, hd => by
  rw [buildLut] at h
  rcases List.mem_cons.mp hr with rfl | hr
  · rw [if_pos ht, hd] at h
    obtain ⟨vs, hf, hx⟩ := lutFind_lutInsert_self acc d r.name
    exact buildLut_mono h hf hx
  · by_cases ht0 : (pyStrip r0.name.data).length > 0
    · rw [if_pos ht0] at h
      cases hu : from_str r0.si_units with
      | none => rw [hu] at h; cases h
      | some u =>
        rw [hu] at h
        exact buildLut_find h r hr ht hd
    · rw [if_neg ht0] at h
      exact buildLut_find h r hr ht hd

theorem pairRules_mem {n op b r : String} {others outs : List String}
    (hb : b ∈ others) (hr : r ∈ outs) (hadm : ¬ disallowed n b r) :
    (⟨n, op, b, r⟩ : Conv) ∈ pairRules n op others outs := by
  rw [pairRules, List.mem_flatMap]
  refine ⟨b, hb, ?_⟩
  rw [List.mem_filterMap]
  refine ⟨r, hr, ?_⟩
  rw [if_neg hadm]

theorem pairRules_shape {conv : Conv} {n op : String} {others outs : List String}
    (h : conv ∈ pairRules n op others outs) :
    conv.left = n ∧ conv.operator = op ∧
      ¬ disallowed conv.left conv.right conv.result := by
  rw [pairRules, List.mem_flatMap] at h
  obtain ⟨b, _, h⟩ := h
  rw [List.mem_filterMap] at h
  obtain ⟨r, _, h⟩ := h
  by_cases hc : disallowed n b r
  · rw [if_pos hc] at h
    cases h
  · rw [if_neg hc] at h
    cases Option.some.inj h
    exact ⟨rfl, rfl, hc⟩

theorem convsForKey_shape {conv : Conv} {thisU : SIUnits} {nm : String}
    {lut : List (SIUnits × List String)} {entry : SIUnits × List String}
    (h : conv ∈ convsForKey thisU nm lut entry) :
    conv.left = nm ∧ ¬ disallowed conv.left conv.right conv.result := by
  rw [convsForKey] at h
  rcases List.mem_append.mp h with h | h
  · cases hf : lutFind lut (thisU.mul entry.1) with
    | none => rw [hf] at h; cases h
    | some outs =>
      rw [hf] at h
      obtain ⟨h1, _, h3⟩ := pairRules_shape h
      exact ⟨h1, h3⟩
  · cases hf : lutFind lut (thisU.truediv entry.1) with
    | none => rw [hf] at h; cases h
    | some outs =>
      rw [hf] at h
      obtain ⟨h1, _, h3⟩ := pairRules_shape h
      exact ⟨h1, h3⟩

theorem convsForRow_shape {conv : Conv} {lut : List (SIUnits × List String)} {r : QRow} {c}
    (h : convsForRow lut r = some c) (hm : conv ∈ c) :
    ¬ disallowed conv.left conv.right conv.result := by
  unfold convsForRow at h
  cases hu : from_str r.si_units with
  | none => rw [hu] at h; cases h
  | some u =>
    rw [hu] at h
    simp only [bind, Option.bind, pure] at h
    cases Option.some.inj h
    rw [List.mem_flatMap] at hm
    obtain ⟨entry, _, hm⟩ := hm
    exact (convsForKey_shape hm).2

theorem convsGo_shape : ∀ {rows : List QRow} {lut convs},
    convsGo lut rows = some convs →
    ∀ conv ∈ convs, ¬ disallowed conv.left conv.right conv.result
| [], lut, convs, h, conv, hm => by
  cases Option.some.inj h
  cases hm
| r :: rest, lut, convs, h, conv, hm => by
  rw [convsGo] at h
  cases hc : convsForRow lut r with
  | none => rw [hc] at h; cases h
  | some c =>
    rw [hc] at h
    cases hcs : convsGo lut rest with
    | none => rw [hcs] at h; simp [bind, Option.bind, hcs] at h
    | some cs =>
      rw [hcs] at h
      simp only [bind, Option.bind, pure] at h
      cases Option.some.inj h
      rcases List.mem_append.mp hm with hm | hm
      · exact convsForRow_shape hc hm
      · exact convsGo_shape hcs conv hm

theorem convsGo_mem : ∀ {rows : List QRow} {lut convs},
    convsGo lut rows = some convs → ∀ r ∈ rows,
    ∃ c, convsForRow lut r = some c ∧ ∀ x ∈ c, x ∈ convs
| [], lut, convs, _, r, hr => by cases hr
| r0 :: rest, lut, convs, h, r, hr => by
  rw [convsGo] at h
  cases hc : convsForRow lut r0 with
  | none => rw [hc] at h; cases h
  | some c =>
    rw [hc] at h
    cases hcs : convsGo lut rest with
    | none => rw [hcs] at h; simp [bind, Option.bind] at h
    | some cs =>
      rw [hcs] at h
      simp only [bind, Option.bind, pure] at h
      cases Option.some.inj h
      rcases List.mem_cons.mp hr with rfl | hr
      · exact ⟨c, hc, fun x hx => List.mem_append_left _ hx⟩
      · obtain ⟨c2, hc2, hsub⟩ := convsGo_mem hcs r hr
        exact ⟨c2, hc2, fun x hx => List.mem_append_right _ (hsub x hx)⟩

theorem find_unit_conversions_shape {rows : List QRow} {convs : List Conv}
    (h : find_unit_conversions rows = some convs) :
    ∃ lut, buildLut [] rows = some lut ∧ convsGo lut rows = some convs := by
  unfold find_unit_conversions at h
  cases hl : buildLut [] rows with
  | none => rw [hl] at h; cases h
  | some lut =>
    rw [hl] at h
    simp only [bind, Option.bind] at h
    exact ⟨lut, rfl, h⟩

theorem convsForKey_pair (thisU : SIUnits) (nm : String) (lut : List (SIUnits × List String))
    (k : SIUnits) (vs : List String) :
    convsForKey thisU nm lut (k, vs) =
      (match lutFind lut (thisU.mul k) with
       | some outs => pairRules nm "*" vs outs
       | none => []) ++
      (match lutFind lut (thisU.truediv k) with
       | some outs => pairRules nm "/" vs outs
       | none => []) := rfl

/-- C1: given quantities `A`, `B`, `R` of the catalog (with `B` and `R`
carrying non-blank names) such that `R`'s dimension equals `A.dim * B.dim`
(operator `"*"`) or `A.dim / B.dim` (operator `"/"`), the conversion
synthesizer emits the rule `(A, B, R)` for that operator if and only if the
triple is in the combination whitelist, or none of: `A` input-blacklisted,
`B` input-blacklisted, `R` output-blacklisted. -/
theorem claim_C1 (rows : List QRow) (convs : List Conv) (A B R : QRow)
    (dA dB dR : SIUnits) (op : String)
    (hfind : find_unit_conversions rows = some convs)
    (hA : A ∈ rows) (hB : B ∈ rows) (hR : R ∈ rows)
    (hBname : (pyStrip B.name.data).length > 0) (hRname : (pyStrip R.name.data).length > 0)
    (hdA : from_str A.si_units = some dA) (hdB : from_str B.si_units = some dB)
    (hdR : from_str R.si_units = some dR)
    (hop : (op = "*" ∧ SIUnits.eq dR (dA.mul dB) = true) ∨
           (op = "/" ∧ SIUnits.eq dR (dA.truediv dB) = true)) :
    (⟨A.name, op, B.name, R.name⟩ : Conv) ∈ convs ↔
      ((A.name, B.name, R.name) ∈ combo_whitelist ∨
        (A.name ∉ input_blacklist ∧ B.name ∉ input_blacklist ∧
          R.name ∉ output_blacklist)) := by
  obtain ⟨lut, hlut, hgo⟩ := find_unit_conversions_shape hfind
  obtain ⟨hcanon, hnodup⟩ := buildLut_invariant hlut (fun e he => by cases he) List.Pairwise.nil
  constructor
  · intro hmem
    have hnd : ¬ disallowed A.name B.name R.name := convsGo_shape hgo _ hmem
    unfold disallowed at hnd
    tauto
  · intro hadm
    have hndis : ¬ disallowed A.name B.name R.name := by
      unfold disallowed
      tauto
    obtain ⟨vsB, hfB, hmB⟩ := buildLut_find hlut B hB hBname hdB
    obtain ⟨vsR, hfR, hmR⟩ := buildLut_find hlut R hR hRname hdR
    obtain ⟨kB, hkBmem, hkBeq⟩ := lutFind_mem hfB
    have hkB : kB = dB :=
      (eq_iff_of_simplify (hcanon _ hkBmem) (from_str_simplify hdB)).mp hkBeq
    subst hkB
    obtain ⟨c, hc, hsub⟩ := convsGo_mem hgo A hA
    unfold convsForRow at hc
    rw [hdA] at hc
    simp only [bind, Option.bind, pure] at hc
    cases Option.some.inj hc
    apply hsub
    rw [List.mem_flatMap]
    refine ⟨(kB, vsB), hkBmem, ?_⟩
    rw [convsForKey_pair]
    rcases hop with ⟨rfl, heq⟩ | ⟨rfl, heq⟩
    · apply List.mem_append_left
      have hmul : dR = dA.mul kB :=
        (eq_iff_of_simplify (from_str_simplify hdR) (by rw [SIUnits.mul]; exact mkSIUnits_simplify _ _)).mp heq
      rw [← hmul, hfR]
      exact pairRules_mem hmB hmR hndis
    · apply List.mem_append_right
      have hdiv : dR = dA.truediv kB :=
        (eq_iff_of_simplify (from_str_simplify hdR) (by rw [SIUnits.truediv]; exact mkSIUnits_simplify _ _)).mp heq
      rw [← hdiv, hfR]
      exact pairRules_mem hmB hmR hndis

/-- Witness for C1: on the catalog `mass (kg)`, `acceleration (m/s^2)`,
`force (kg.m/s^2)` the synthesizer emits `mass * acceleration = force`, and
the admission filter is satisfied. -/
theorem claim_C1_witness :
    (⟨"mass", "*", "acceleration", "force"⟩ : Conv) ∈
      [(⟨"mass", "*", "acceleration", "force"⟩ : Conv),
       ⟨"acceleration", "*", "mass", "force"⟩,
       ⟨"force", "/", "mass", "acceleration"⟩,
       ⟨"force", "/", "acceleration", "mass"⟩] ↔
      (("mass", "acceleration", "force") ∈ combo_whitelist ∨
        ("mass" ∉ input_blacklist ∧ "acceleration" ∉ input_blacklist ∧
          "force" ∉ output_blacklist)) :=
  claim_C1
    [⟨"mass", "base", "kg", "kg"⟩,
     ⟨"acceleration", "mechanical", "m/s^2", "mps2"⟩,
     ⟨"force", "mechanical", "kg.m/s^2", "N"⟩]
    [⟨"mass", "*", "acceleration", "force"⟩,
     ⟨"acceleration", "*", "mass", "force"⟩,
     ⟨"force", "/", "mass", "acceleration"⟩,
     ⟨"force", "/", "acceleration", "mass"⟩]
    ⟨"mass", "base", "kg", "kg"⟩
    ⟨"acceleration", "mechanical", "m/s^2", "mps2"⟩
    ⟨"force", "mechanical", "kg.m/s^2", "N"⟩
    ⟨["kg"], []⟩ ⟨["m"], ["s", "s"]⟩ ⟨["kg", "m"], ["s", "s"]⟩ "*"
    (by decide) (by decide) (by decide) (by decide) (by decide) (by decide)
    (by decide) (by decide) (by decide) (Or.inl ⟨rfl, by decide⟩)

/-! ## Claim C5: pivot rotation of inverted names and symbols -/

theorem strAppend_data (a b : String) : (a ++ b).data = a.data ++ b.data := by
  cases a; cases b; rfl

/-- Modelled from the specification text of claim C5 (the refinement target,
deliberately not taken from the source): whenever the symbol contains a `'p'`
after its first character, split at the first `'p'` and swap the two halves;
otherwise prepend `"per_"`. -/
def claimed_inverted_symbol (sym : String) : String :=
  if (sym.data.drop 1).contains 'p' then
    match splitOnceSub ['p'] sym.data with
    | some (a, b) => String.mk (b ++ 'p' :: a)
    | none => sym
  else "per_" ++ sym

/-- Counterexample to C5: for the measurement-row symbol `"mps"` the code
uses the space-padded pivot `" p "`, which does not occur, so it prepends
`" p "` instead of performing the claimed rotation around `'p'`. -/
theorem claim_C5_counterexample :
    inverse_meas_unit_symbol "mps" = " p mps"
    ∧ claimed_inverted_symbol "mps" = "spm"
    ∧ inverse_meas_unit_symbol "mps" ≠ claimed_inverted_symbol "mps" := by
  refine ⟨?_, ?_, ?_⟩ <;> decide

/-- C5 as amended: names (both for the suggested quantity and for
measurement rows) rotate around the first `" per "` when one occurs and the
name does not start with it, else get `"inverse "` prepended. The
suggested-quantity symbol rotates around the first bare `'p'` when a `'p'`
occurs after the first character — unless the symbol starts with `'p'`, in
which case `"p"` is prepended. The measurement-row symbol is instead rotated
around the space-padded pivot `" p "` under the same bare-`'p'` guard, so a
symbol containing `'p'` but not `" p "` gets `" p "` prepended. -/
theorem claim_C5_amended :
    (∀ nm a b, splitOnceSub (" per ").data nm.data = some (a, b) → a ≠ [] →
      suggested_unit_name nm = String.mk (b ++ (" per ").data ++ a)
      ∧ inverse_meas_unit_name nm = String.mk (b ++ (" per ").data ++ a))
    ∧ (∀ nm, containsSub (" per ").data nm.data = false →
      suggested_unit_name nm = "inverse " ++ nm
      ∧ inverse_meas_unit_name nm = "inverse " ++ nm)
    ∧ (∀ sym a b, (sym.data.drop 1).contains 'p' = true →
      splitOnceSub ['p'] sym.data = some (a, b) → a ≠ [] →
      suggested_unit_symbol sym = String.mk (b ++ ['p'] ++ a))
    ∧ (∀ sym rest, sym.data = 'p' :: rest → rest.contains 'p' = true →
      suggested_unit_symbol sym = "p" ++ sym)
    ∧ (∀ sym, (sym.data.drop 1).contains 'p' = false →
      suggested_unit_symbol sym = "per_" ++ sym
      ∧ inverse_meas_unit_symbol sym = "per_" ++ sym)
    ∧ (∀ sym, (sym.data.drop 1).contains 'p' = true →
      containsSub (" p ").data sym.data = false →
      inverse_meas_unit_symbol sym = " p " ++ sym)
    ∧ (∀ sym a b, (sym.data.drop 1).contains 'p' = true →
      splitOnceSub (" p ").data sym.data = some (a, b) → a ≠ [] →
      inverse_meas_unit_symbol sym = String.mk (b ++ (" p ").data ++ a)) := by
  refine ⟨?_, ?_, ?_, ?_, ?_, ?_, ?_⟩
  · intro nm a b hsplit ha
    have hcont : containsSub (" per ").data nm.data = true := by
      rw [containsSub, hsplit]
      rfl
    constructor
    · rw [suggested_unit_name, if_pos hcont, rotate_string, hsplit]
      exact if_neg ha
    · rw [inverse_meas_unit_name, if_pos hcont, rotate_string, hsplit]
      exact if_neg ha
  · intro nm hcont
    constructor
    · rw [suggested_unit_name, if_neg (by rw [hcont]; exact Bool.false_ne_true)]
    · rw [inverse_meas_unit_name, if_neg (by rw [hcont]; exact Bool.false_ne_true)]
  · intro sym a b hp hsplit ha
    rw [suggested_unit_symbol, if_pos hp, rotate_string]
    have hpd : ("p" : String).data = ['p'] := rfl
    rw [hpd, hsplit]
    exact if_neg ha
  · intro sym rest hsym hrest
    obtain ⟨d⟩ := sym
    have hd : d = 'p' :: rest := hsym
    subst hd
    have hp : ((String.mk ('p' :: rest)).data.drop 1).contains 'p' = true := hrest
    rw [suggested_unit_symbol, if_pos hp, rotate_string]
    have hsplit : splitOnceSub ("p" : String).data (String.mk ('p' :: rest)).data
        = some ([], rest) := by
      show splitOnceSub ['p'] ('p' :: rest) = some ([], rest)
      rw [splitOnceSub, if_pos (by simp [List.isPrefixOf])]
      rfl
    rw [hsplit]
    exact (if_pos rfl).trans rfl
  · intro sym hp
    constructor
    · rw [suggested_unit_symbol, if_neg (by rw [hp]; exact Bool.false_ne_true)]
    · rw [inverse_meas_unit_symbol, if_neg (by rw [hp]; exact Bool.false_ne_true)]
  · intro sym hp hcont
    rw [inverse_meas_unit_symbol, if_pos hp, rotate_string]
    have hnone : splitOnceSub (" p ").data sym.data = none := by
      cases hs : splitOnceSub (" p ").data sym.data with
      | none => rfl
      | some x => rw [containsSub, hs] at hcont; cases hcont
    rw [hnone]
    cases sym
    rfl
  · intro sym a b hp hsplit ha
    rw [inverse_meas_unit_symbol, if_pos hp, rotate_string, hsplit]
    exact if_neg ha

/-- Witness for the amended C5 at concrete inputs: a rotated name, the
suggested-quantity symbol rotation around `'p'`, and the measurement-row
`" p "` prepending. -/
theorem claim_C5_amended_witness :
    suggested_unit_name "meters per second" = "second per meters"
    ∧ suggested_unit_symbol "mps" = "spm"
    ∧ inverse_meas_unit_symbol "mps" = " p mps" :=
  ⟨((claim_C5_amended.1 "meters per second" "meters".data "second".data
      (by decide) (by decide)).1).trans (by decide),
   (claim_C5_amended.2.2.1 "mps" "m".data "s".data
      (by decide) (by decide) (by decide)).trans (by decide),
   (claim_C5_amended.2.2.2.2.2.1 "mps" (by decide) (by decide)).trans (by decide)⟩

/-! ## Claim C4: which malformed inputs make `from_str` fail -/

/-- The dot-separated chunks `expand_units` iterates over for one side. -/
def sideChunks (side : List Char) : List (List Char) :=
  if side = ['1'] then [] else (splitChar '.' side).filter (fun x => x.length > 0)

/-- All chunks both sides of `from_str` iterate over. -/
def fromStrChunks (s : String) : List (List Char) :=
  sideChunks (fromStrSides s).1 ++ sideChunks (fromStrSides s).2

theorem expandOne_none_iff (u : List Char) :
    expandOne u = none ↔
      '^' ∈ u ∧ ∀ x nstr, splitChar '^' u = [x, nstr] → pyInt nstr = none := by
  by_cases hc : '^' ∈ u
  · rw [expandOne, if_pos hc]
    match hs : splitChar '^' u with
    | [] => simp [hs, hc]
    | [x] => simp [hs, hc]
    | [x, nstr] =>
      cases hp : pyInt nstr with
      | none => simp [hs, hp, hc]
      | some n =>
        simp only [hp, hc, true_and]
        constructor
        · intro h; cases h
        · intro h
          have h2 := h x nstr rfl
          rw [hp] at h2
          cases h2
    | x :: y :: z :: rest => simp [hs, hc]
  · rw [expandOne, if_neg hc]
    simp [hc]

theorem expandTokens_none_iff : ∀ l : List (List Char),
    expandTokens l = none ↔ ∃ u ∈ l, expandOne u = none
| [] => by simp [expandTokens]
| u :: rest => by
  rw [expandTokens]
  cases he : expandOne u with
  | none =>
    simp only [bind, Option.bind, List.mem_cons]
    exact ⟨fun _ => ⟨u, Or.inl rfl, he⟩, fun _ => trivial⟩
  | some e =>
    cases hr : expandTokens rest with
    | none =>
      have hex := (expandTokens_none_iff rest).mp hr
      simp only [bind, Option.bind, List.mem_cons]
      constructor
      · intro _
        obtain ⟨u2, hu2, hbad⟩ := hex
        exact ⟨u2, Or.inr hu2, hbad⟩
      · intro _; trivial
    | some r =>
      have hnone := (expandTokens_none_iff rest).not.mp (by rw [hr]; simp)
      simp only [bind, Option.bind, pure, List.mem_cons]
      constructor
      · intro h; cases h
      · rintro ⟨u2, hu2 | hu2, hbad⟩
        · subst hu2; rw [he] at hbad; cases hbad
        · exact absurd ⟨u2, hu2, hbad⟩ hnone

theorem expand_units_none_iff (side : List Char) :
    expand_units side = none ↔ ∃ u ∈ sideChunks side, expandOne u = none := by
  rw [expand_units, sideChunks]
  by_cases h1 : side = ['1']
  · rw [if_pos h1, if_pos h1]
    simp
  · rw [if_neg h1, if_neg h1]
    exact expandTokens_none_iff _

theorem from_str_none_iff (s : String) :
    from_str s = none ↔ ∃ u ∈ fromStrChunks s, expandOne u = none := by
  unfold from_str fromStrChunks
  constructor
  · intro h
    cases hn : expand_units (fromStrSides s).1 with
    | none =>
      obtain ⟨u, hu, hbad⟩ := (expand_units_none_iff _).mp hn
      exact ⟨u, List.mem_append_left _ hu, hbad⟩
    | some nl =>
      cases hd : expand_units (fromStrSides s).2 with
      | none =>
        obtain ⟨u, hu, hbad⟩ := (expand_units_none_iff _).mp hd
        exact ⟨u, List.mem_append_right _ hu, hbad⟩
      | some dl =>
        rw [hn, hd] at h
        simp only [bind, Option.bind, pure] at h
        cases h
  · rintro ⟨u, hu, hbad⟩
    rcases List.mem_append.mp hu with hu | hu
    · have hn : expand_units (fromStrSides s).1 = none :=
        (expand_units_none_iff _).mpr ⟨u, hu, hbad⟩
      simp only [bind, Option.bind, hn]
    · cases hn : expand_units (fromStrSides s).1 with
      | none => simp only [bind, Option.bind, hn]
      | some nl =>
        have hd : expand_units (fromStrSides s).2 = none :=
          (expand_units_none_iff _).mpr ⟨u, hu, hbad⟩
        simp only [bind, Option.bind, hn, hd]

/-- Counterexample to C4: a zero power, a negative power and an empty token
all parse silently — `m^0` and `m^-2` expand to zero copies and the empty
chunk of `kg..m` is dropped — where the claim requires a `FormatError`. -/
theorem claim_C4_counterexample :
    from_str "m^0" = some ⟨[], []⟩
    ∧ from_str "m^-2" = some ⟨[], []⟩
    ∧ from_str "kg..m" = some ⟨["kg", "m"], []⟩ := by
  refine ⟨?_, ?_, ?_⟩ <;> decide

/-- C4 as amended: `from_str` fails (with Python's `ValueError`, the
specification's `FormatError`) precisely when some non-empty dot-separated
chunk of the numerator or of the folded denominator (the literal side `"1"`
excepted) contains `'^'` but does not split at carets into exactly two parts
whose second part parses as an integer. Tokens with an integer power `n <= 0`
expand silently to zero copies, and empty tokens are silently dropped. -/
theorem claim_C4_amended (s : String) :
    from_str s = none ↔ ∃ u ∈ fromStrChunks s, '^' ∈ u ∧
      ∀ x nstr, splitChar '^' u = [x, nstr] → pyInt nstr = none := by
  rw [from_str_none_iff]
  constructor
  · rintro ⟨u, hu, hbad⟩
    exact ⟨u, hu, (expandOne_none_iff u).mp hbad⟩
  · rintro ⟨u, hu, hbad⟩
    exact ⟨u, hu, (expandOne_none_iff u).mpr hbad⟩

/-! ## Claim C9: render/re-parse round trip

First the decimal-numeral round trip `pyInt (natRepr n) = n`. -/

def digitChars : List Char := ['0', '1', '2', '3', '4', '5', '6', '7', '8', '9']

theorem natDigitChar_mem (d : Nat) : natDigitChar d ∈ digitChars := by
  unfold natDigitChar
  split <;> decide

theorem digitVal_natDigitChar {d : Nat} (h : d < 10) :
    digitVal (natDigitChar d) = some d := by
  interval_cases d <;> decide

theorem digitChar_not_special {c : Char} (h : c ∈ digitChars) :
    c ≠ '-' ∧ c ≠ '+' ∧ c ≠ '.' ∧ c ≠ '^' ∧ c ≠ '/' := by
  fin_cases h <;> refine ⟨by decide, by decide, by decide, by decide, by decide⟩

theorem natDigitsGo_ne_nil (fuel n : Nat) : natDigitsGo (fuel + 1) n ≠ [] := by
  rw [natDigitsGo]
  by_cases h : n < 10
  · rw [if_pos h]; exact List.cons_ne_nil _ _
  · rw [if_neg h]; exact List.cons_ne_nil _ _

theorem natDigitsGo_chars : ∀ (fuel n : Nat), ∀ c ∈ natDigitsGo fuel n, c ∈ digitChars
| 0, n => by intro c hc; cases hc
| fuel + 1, n => by
  intro c hc
  rw [natDigitsGo] at hc
  by_cases h : n < 10
  · rw [if_pos h] at hc
    rcases List.mem_singleton.mp hc with rfl
    exact natDigitChar_mem n
  · rw [if_neg h] at hc
    rcases List.mem_cons.mp hc with rfl | hc
    · exact natDigitChar_mem (n % 10)
    · exact natDigitsGo_chars fuel (n / 10) c hc

theorem parseDigitsGo_append : ∀ (xs ys : List Char) (acc : Nat),
    parseDigitsGo acc (xs ++ ys) =
      match parseDigitsGo acc xs with
      | some a => parseDigitsGo a ys
      | none => none
| [], ys, acc => rfl
| c :: xs, ys, acc => by
  rw [List.cons_append, parseDigitsGo, parseDigitsGo]
  cases digitVal c with
  | none => rfl
  | some d => exact parseDigitsGo_append xs ys (acc * 10 + d)

theorem parseDigitsGo_natDigits : ∀ (fuel n acc : Nat), n < fuel →
    parseDigitsGo acc (natDigitsGo fuel n).reverse =
      some (acc * 10 ^ (natDigitsGo fuel n).length + n)
| 0, n, acc, h => absurd h (Nat.not_lt_zero n)
| fuel + 1, n, acc, h => by
  rw [natDigitsGo]
  by_cases h10 : n < 10
  · rw [if_pos h10]
    simp only [List.reverse_singleton, List.length_singleton, pow_one]
    simp [parseDigitsGo, digitVal_natDigitChar h10]
  · rw [if_neg h10]
    have hq : n / 10 < fuel := lt_of_lt_of_le (Nat.div_lt_self (by omega) (by omega)) (by omega)
    rw [List.reverse_cons, parseDigitsGo_append]
    rw [parseDigitsGo_natDigits fuel (n / 10) acc hq]
    simp only [parseDigitsGo, digitVal_natDigitChar (Nat.mod_lt n (by omega))]
    have hdm : n / 10 * 10 + n % 10 = n := by omega
    have hlen : (natDigitChar (n % 10) :: natDigitsGo fuel (n / 10)).length =
        (natDigitsGo fuel (n / 10)).length + 1 := by
      rw [List.length_cons]
    rw [hlen]
    congr 1
    calc (acc * 10 ^ (natDigitsGo fuel (n / 10)).length + n / 10) * 10 + n % 10
        = acc * (10 ^ (natDigitsGo fuel (n / 10)).length * 10) +
            (n / 10 * 10 + n % 10) := by ring
      _ = acc * 10 ^ ((natDigitsGo fuel (n / 10)).length + 1) + n := by
            rw [hdm, pow_succ]

theorem natRepr_chars : ∀ c ∈ (natRepr n).data, c ∈ digitChars := by
  intro c hc
  rw [natRepr] at hc
  have : c ∈ natDigitsGo (n + 1) n := List.mem_reverse.mp hc
  exact natDigitsGo_chars (n + 1) n c this

theorem pyInt_natRepr (c : Nat) : pyInt (natRepr c).data = some (c : Int) := by
  have hparse := parseDigitsGo_natDigits (c + 1) c 0 (Nat.lt_succ_self c)
  have hdata : (natRepr c).data = (natDigitsGo (c + 1) c).reverse := rfl
  cases hrev : (natDigitsGo (c + 1) c).reverse with
  | nil =>
    exact absurd (List.reverse_eq_nil_iff.mp hrev) (natDigitsGo_ne_nil c c)
  | cons c0 rest =>
    have hc0 : c0 ∈ digitChars := by
      refine natDigitsGo_chars (c + 1) c c0 (List.mem_reverse.mp ?_)
      rw [hrev]
      exact List.mem_cons_self _ _
    obtain ⟨hd1, hd2, _, _, _⟩ := digitChar_not_special hc0
    rw [hdata, hrev]
    rw [pyInt, if_neg hd1, if_neg hd2]
    have hpd : parseDigits (c0 :: rest) = parseDigitsGo 0 (c0 :: rest) := rfl
    rw [hpd]
    rw [hrev] at hparse
    rw [hparse]
    simp

/-! ### `splitChar` and `joinChar` facts -/

theorem splitChar_ne_nil (c : Char) : ∀ l : List Char, splitChar c l ≠ []
| [] => by rw [splitChar]; exact List.cons_ne_nil _ _
| x :: xs => by
  cases hs : splitChar c xs with
  | nil => exact absurd hs (splitChar_ne_nil c xs)
  | cons s rest =>
    simp only [splitChar, hs]
    by_cases hx : x = c
    · rw [if_pos hx]; exact List.cons_ne_nil _ _
    · rw [if_neg hx]; exact List.cons_ne_nil _ _

theorem splitChar_no_sep (c : Char) : ∀ l : List Char, c ∉ l → splitChar c l = [l]
| [], _ => rfl
| x :: xs, h => by
  have hx : x ≠ c := fun hc => h (hc ▸ List.mem_cons_self x xs)
  have hxs : c ∉ xs := fun hc => h (List.mem_cons_of_mem x hc)
  simp only [splitChar, splitChar_no_sep c xs hxs]
  rw [if_neg hx]

theorem splitChar_append_sep (c : Char) : ∀ (a b : List Char), c ∉ a →
    splitChar c (a ++ c :: b) = a :: splitChar c b
| [], b, _ => by
  cases hs : splitChar c b with
  | nil => exact absurd hs (splitChar_ne_nil c b)
  | cons s rest =>
    rw [List.nil_append]
    simp only [splitChar, hs]
    rw [if_true]
| x :: a, b, h => by
  have hx : x ≠ c := fun hc => h (hc ▸ List.mem_cons_self x a)
  have ha : c ∉ a := fun hc => h (List.mem_cons_of_mem x hc)
  rw [List.cons_append]
  have hrec := splitChar_append_sep c a b ha
  cases hs : splitChar c b with
  | nil => exact absurd hs (splitChar_ne_nil c b)
  | cons s rest =>
    rw [hs] at hrec
    simp only [splitChar, hrec]
    rw [if_neg hx]

theorem splitChar_chunk_chars (c : Char) : ∀ (l : List Char), ∀ chunk ∈ splitChar c l,
    ∀ ch ∈ chunk, ch ∈ l
| [], chunk, hc, ch, hch => by
  rw [splitChar] at hc
  rcases List.mem_singleton.mp hc with rfl
  cases hch
| x :: xs, chunk, hc, ch, hch => by
  cases hs : splitChar c xs with
  | nil => exact absurd hs (splitChar_ne_nil c xs)
  | cons s rest =>
    simp only [splitChar, hs] at hc
    by_cases hx : x = c
    · rw [if_pos hx] at hc
      rcases List.mem_cons.mp hc with rfl | hc
      · cases hch
      · exact List.mem_cons_of_mem x
          (splitChar_chunk_chars c xs chunk (by rw [hs]; exact hc) ch hch)
    · rw [if_neg hx] at hc
      rcases List.mem_cons.mp hc with rfl | hc
      · rcases List.mem_cons.mp hch with rfl | hch
        · exact List.mem_cons_self _ _
        · exact List.mem_cons_of_mem x
            (splitChar_chunk_chars c xs s (by rw [hs]; exact List.mem_cons_self s rest) ch hch)
      · exact List.mem_cons_of_mem x
          (splitChar_chunk_chars c xs chunk (by rw [hs]; exact List.mem_cons_of_mem s hc) ch hch)

theorem splitChar_chunk_no_sep (c : Char) : ∀ (l : List Char), ∀ chunk ∈ splitChar c l,
    c ∉ chunk
| [], chunk, hc => by
  rw [splitChar] at hc
  rcases List.mem_singleton.mp hc with rfl
  exact List.not_mem_nil c
| x :: xs, chunk, hc => by
  cases hs : splitChar c xs with
  | nil => exact absurd hs (splitChar_ne_nil c xs)
  | cons s rest =>
    simp only [splitChar, hs] at hc
    by_cases hx : x = c
    · rw [if_pos hx] at hc
      rcases List.mem_cons.mp hc with rfl | hc
      · exact List.not_mem_nil c
      · exact splitChar_chunk_no_sep c xs chunk (by rw [hs]; exact hc)
    · rw [if_neg hx] at hc
      rcases List.mem_cons.mp hc with rfl | hc
      · intro hmem
        rcases List.mem_cons.mp hmem with h | h
        · exact hx h.symm
        · exact splitChar_chunk_no_sep c xs s (by rw [hs]; exact List.mem_cons_self s rest) h
      · exact splitChar_chunk_no_sep c xs chunk (by rw [hs]; exact List.mem_cons_of_mem s hc)

theorem joinChar_mem (c : Char) : ∀ (parts : List (List Char)), ∀ ch ∈ joinChar c parts,
    ch = c ∨ ∃ p ∈ parts, ch ∈ p
| [], ch, h => by cases h
| [a], ch, h => Or.inr ⟨a, List.mem_singleton_self a, h⟩
| a :: b :: rest, ch, h => by
  have hj : joinChar c (a :: b :: rest) = a ++ c :: joinChar c (b :: rest) := rfl
  rw [hj] at h
  rcases List.mem_append.mp h with h | h
  · exact Or.inr ⟨a, List.mem_cons_self _ _, h⟩
  · rcases List.mem_cons.mp h with rfl | h
    · exact Or.inl rfl
    · rcases joinChar_mem c (b :: rest) ch h with h | ⟨p, hp, hchp⟩
      · exact Or.inl h
      · exact Or.inr ⟨p, List.mem_cons_of_mem a hp, hchp⟩

/-! ### `condense_units` as a dot-join of per-token segments -/

theorem strAppend_assoc (a b c : String) : a ++ b ++ c = a ++ (b ++ c) := by
  cases a; cases b; cases c
  show String.mk _ = String.mk _
  rw [List.append_assoc]

theorem strEq_of_data {a b : String} (h : a.data = b.data) : a = b := by
  cases a; cases b; cases h; rfl

theorem strLength_data (s : String) : s.length = s.data.length := by
  cases s
  rfl

/-- The distinct tokens of `l` not yet in `seen`, in first-occurrence order:
follows the `n_parsed` bookkeeping of the `condense_units` loop. -/
def distinctIn (seen : List String) : List String → List String
| [] => []
| x :: xs => if x ∈ seen then distinctIn seen xs else x :: distinctIn (x :: seen) xs

/-- The text `condense_units` emits for one distinct token. -/
def segOf (full : List String) (t : String) : String :=
  if full.count t > 1 then t ++ "^" ++ natRepr (full.count t) else t

/-- The dot-joining accumulator of `condense_units`. -/
def dotJoinAux (out : String) : List String → String
| [] => out
| s :: rest => dotJoinAux (if out.length > 0 then out ++ "." ++ s else out ++ s) rest

theorem condenseAux_eq (full : List String) : ∀ (l : List String) (out : String)
    (seen : List String),
    condenseAux full l out seen = dotJoinAux out ((distinctIn seen l).map (segOf full))
| [], out, seen => rfl
| n :: rest, out, seen => by
  rw [condenseAux, distinctIn]
  by_cases hn : n ∈ seen
  · rw [if_pos hn, if_pos hn, condenseAux_eq full rest out seen]
  · rw [if_neg hn, if_neg hn]
    rw [condenseAux_eq full rest _ (n :: seen)]
    rw [List.map_cons, dotJoinAux]
    congr 1
    rw [segOf]
    by_cases hc : full.count n > 1
    · rw [if_pos hc, if_pos hc]
      by_cases ho : out.length > 0
      · rw [if_pos ho, if_pos ho]
        apply strEq_of_data
        simp [strAppend_data, List.append_assoc]
      · rw [if_neg ho, if_neg ho]
        apply strEq_of_data
        simp [strAppend_data, List.append_assoc]
    · rw [if_neg hc, if_neg hc]
      by_cases ho : out.length > 0
      · rw [if_pos ho, if_pos ho]
      · rw [if_neg ho, if_neg ho]

theorem condense_units_eq (l : List String) :
    condense_units l = dotJoinAux "" ((distinctIn [] l).map (segOf l)) :=
  condenseAux_eq l l "" []

theorem dotJoinAux_data : ∀ (segs : List String) (out : String), out.data ≠ [] →
    (dotJoinAux out segs).data =
      out.data ++ segs.flatMap (fun s => '.' :: s.data)
| [], out, _ => by simp [dotJoinAux]
| s :: rest, out, hne => by
  rw [dotJoinAux]
  have ho : out.length > 0 := by
    rw [strLength_data]
    exact List.length_pos.mpr hne
  rw [if_pos ho]
  have hne2 : (out ++ "." ++ s).data ≠ [] := by
    rw [strAppend_data, strAppend_data]
    simp
  rw [dotJoinAux_data rest _ hne2]
  rw [strAppend_data, strAppend_data]
  simp

theorem dotJoin_cons_data (s : String) (rest : List String) (hs : s.data ≠ []) :
    (dotJoinAux "" (s :: rest)).data =
      s.data ++ rest.flatMap (fun t => '.' :: t.data) := by
  rw [dotJoinAux]
  have h0 : ¬ ("" : String).length > 0 := by decide
  rw [if_neg h0]
  have he : ("" ++ s).data = s.data := by
    rw [strAppend_data]
    rfl
  rw [dotJoinAux_data rest _ (by rw [he]; exact hs), he]

/-! ### `distinctIn` and the multiset content of condensation -/

theorem distinctIn_mem : ∀ (l seen : List String) (t : String),
    t ∈ distinctIn seen l ↔ t ∈ l ∧ t ∉ seen
| [], seen, t => by simp [distinctIn]
| x :: xs, seen, t => by
  rw [distinctIn]
  by_cases hx : x ∈ seen
  · rw [if_pos hx, distinctIn_mem xs seen t]
    constructor
    · rintro ⟨h1, h2⟩
      exact ⟨List.mem_cons_of_mem x h1, h2⟩
    · rintro ⟨h1, h2⟩
      rcases List.mem_cons.mp h1 with rfl | h1
      · exact absurd hx h2
      · exact ⟨h1, h2⟩
  · rw [if_neg hx]
    constructor
    · intro h
      rcases List.mem_cons.mp h with rfl | h
      · exact ⟨List.mem_cons_self _ _, hx⟩
      · obtain ⟨h1, h2⟩ := (distinctIn_mem xs (x :: seen) t).mp h
        exact ⟨List.mem_cons_of_mem x h1,
          fun hs => h2 (List.mem_cons_of_mem x hs)⟩
    · rintro ⟨h1, h2⟩
      rcases List.mem_cons.mp h1 with rfl | h1
      · exact List.mem_cons_self _ _
      · by_cases ht : t = x
        · subst ht
          exact List.mem_cons_self _ _
        · exact List.mem_cons_of_mem x ((distinctIn_mem xs (x :: seen) t).mpr
            ⟨h1, fun hs => (List.mem_cons.mp hs).elim ht h2⟩)

theorem distinctIn_nodup : ∀ (l seen : List String), (distinctIn seen l).Nodup
| [], seen => List.nodup_nil
| x :: xs, seen => by
  rw [distinctIn]
  by_cases hx : x ∈ seen
  · rw [if_pos hx]
    exact distinctIn_nodup xs seen
  · rw [if_neg hx]
    refine List.nodup_cons.mpr ⟨?_, distinctIn_nodup xs (x :: seen)⟩
    intro hmem
    exact ((distinctIn_mem xs (x :: seen) x).mp hmem).2 (List.mem_cons_self x seen)

theorem distinctIn_nil_ne_nil {l : List String} (h : l ≠ []) : distinctIn [] l ≠ [] := by
  cases l with
  | nil => exact absurd rfl h
  | cons x xs =>
    rw [distinctIn, if_neg (List.not_mem_nil x)]
    exact List.cons_ne_nil _ _

theorem count_flatMap_replicate : ∀ (D : List String) (cnt : String → Nat) (a : String),
    D.Nodup →
    List.count a (D.flatMap (fun t => List.replicate (cnt t) t)) =
      if a ∈ D then cnt a else 0
| [], cnt, a, _ => by simp
| t :: D, cnt, a, hnd => by
  rw [List.flatMap_cons, List.count_append]
  obtain ⟨hhead, htail⟩ := List.nodup_cons.mp hnd
  rw [count_flatMap_replicate D cnt a htail]
  by_cases ha : a = t
  · subst ha
    rw [List.count_replicate, if_neg hhead, if_pos (List.mem_cons_self a D)]
    simp
  · rw [List.count_replicate]
    have : (t == a) = false := by
      simp [Ne.symm ha]
    rw [this]
    by_cases hm : a ∈ D
    · rw [if_pos hm, if_pos (List.mem_cons_of_mem t hm)]
      simp
    · rw [if_neg hm, if_neg (fun hc => (List.mem_cons.mp hc).elim ha hm)]
      simp

theorem distinct_flatMap_perm (l : List String) :
    List.Perm ((distinctIn [] l).flatMap (fun t => List.replicate (l.count t) t)) l := by
  rw [List.perm_iff_count]
  intro a
  rw [count_flatMap_replicate _ _ _ (distinctIn_nodup l [])]
  by_cases hm : a ∈ l
  · rw [if_pos ((distinctIn_mem l [] a).mpr ⟨hm, List.not_mem_nil a⟩)]
  · rw [if_neg (fun hc => hm ((distinctIn_mem l [] a).mp hc).1)]
    exact (List.count_eq_zero.mpr hm).symm

/-! ### Expanding one rendered segment -/

theorem segOf_data_one {l : List String} {t : String} (h : ¬ l.count t > 1) :
    (segOf l t).data = t.data := by
  rw [segOf, if_neg h]

theorem segOf_data_many {l : List String} {t : String} (h : l.count t > 1) :
    (segOf l t).data = t.data ++ '^' :: (natRepr (l.count t)).data := by
  rw [segOf, if_pos h, strAppend_data, strAppend_data]
  simp

theorem expandOne_no_caret (t : String) (h : '^' ∉ t.data) :
    expandOne t.data = some [t] := by
  obtain ⟨d⟩ := t
  rw [expandOne, if_neg h]

theorem expandOne_power (t : String) (cnt : Nat) (h : '^' ∉ t.data) :
    expandOne (t.data ++ '^' :: (natRepr cnt).data) = some (List.replicate cnt t) := by
  obtain ⟨d⟩ := t
  have hdig : '^' ∉ (natRepr cnt).data := fun hc =>
    (digitChar_not_special (natRepr_chars _ hc)).2.2.2.1 rfl
  have hmem : '^' ∈ (String.mk d).data ++ '^' :: (natRepr cnt).data :=
    List.mem_append_right _ (List.mem_cons_self _ _)
  rw [expandOne, if_pos hmem]
  rw [splitChar_append_sep '^' _ _ h, splitChar_no_sep '^' _ hdig]
  simp only [pyInt_natRepr, Int.toNat_natCast]

theorem expandTokens_map : ∀ (D : List String) (f : String → List Char)
    (g : String → List String),
    (∀ t ∈ D, expandOne (f t) = some (g t)) →
    expandTokens (D.map f) = some (D.flatMap g)
| [], _, _, _ => rfl
| t :: D, f, g, h => by
  rw [List.map_cons, expandTokens, h t (List.mem_cons_self t D)]
  rw [expandTokens_map D f g (fun x hx => h x (List.mem_cons_of_mem t hx))]
  simp [bind, Option.bind, pure]

/-! ### The characters `condense_units` can emit -/

theorem segOf_chars {l : List String} {t : String} {ch : Char}
    (h : ch ∈ (segOf l t).data) : ch = '^' ∨ ch ∈ digitChars ∨ ch ∈ t.data := by
  by_cases hc : l.count t > 1
  · rw [segOf_data_many hc] at h
    rcases List.mem_append.mp h with h | h
    · exact Or.inr (Or.inr h)
    · rcases List.mem_cons.mp h with rfl | h
      · exact Or.inl rfl
      · exact Or.inr (Or.inl (natRepr_chars _ h))
  · rw [segOf_data_one hc] at h
    exact Or.inr (Or.inr h)

theorem segOf_data_ne_nil {l : List String} {t : String} (h : t.data ≠ []) :
    (segOf l t).data ≠ [] := by
  by_cases hc : l.count t > 1
  · rw [segOf_data_many hc]
    simp [h]
  · rw [segOf_data_one hc]
    exact h

theorem condense_chars {l : List String} (hne : ∀ t ∈ l, t.data ≠ []) :
    ∀ ch ∈ (condense_units l).data,
      ch = '.' ∨ ch = '^' ∨ ch ∈ digitChars ∨ ∃ t ∈ l, ch ∈ t.data := by
  rw [condense_units_eq]
  cases hD : distinctIn [] l with
  | nil =>
    intro ch hch
    cases hch
  | cons d0 D2 =>
    rw [List.map_cons]
    have hd0l : d0 ∈ l := ((distinctIn_mem l [] d0).mp (by rw [hD]; exact List.mem_cons_self _ _)).1
    rw [dotJoin_cons_data _ _ (segOf_data_ne_nil (hne d0 hd0l))]
    intro ch hch
    rcases List.mem_append.mp hch with h | h
    · rcases segOf_chars h with h | h | h
      · exact Or.inr (Or.inl h)
      · exact Or.inr (Or.inr (Or.inl h))
      · exact Or.inr (Or.inr (Or.inr ⟨d0, hd0l, h⟩))
    · rw [List.mem_flatMap] at h
      obtain ⟨seg, hseg, hch2⟩ := h
      rw [List.mem_map] at hseg
      obtain ⟨t, htD, rfl⟩ := hseg
      have htl : t ∈ l :=
        ((distinctIn_mem l [] t).mp (by rw [hD]; exact List.mem_cons_of_mem d0 htD)).1
      rcases List.mem_cons.mp hch2 with rfl | hch3
      · exact Or.inl rfl
      · rcases segOf_chars hch3 with h | h | h
        · exact Or.inr (Or.inl h)
        · exact Or.inr (Or.inr (Or.inl h))
        · exact Or.inr (Or.inr (Or.inr ⟨t, htl, h⟩))

theorem condense_no_slash {l : List String} (hne : ∀ t ∈ l, t.data ≠ [])
    (hgood : ∀ t ∈ l, '/' ∉ t.data) : '/' ∉ (condense_units l).data := by
  intro hmem
  rcases condense_chars hne '/' hmem with h | h | h | ⟨t, htl, h⟩
  · cases h
  · cases h
  · exact absurd h (by decide)
  · exact hgood t htl h

/-! ### Re-splitting a dot-joined chain of segments -/

theorem splitChar_dotChain : ∀ (rest : List String) (s0 : List Char), '.' ∉ s0 →
    (∀ t ∈ rest, '.' ∉ t.data) →
    splitChar '.' (s0 ++ rest.flatMap (fun t => '.' :: t.data)) =
      s0 :: rest.map String.data
| [], s0, h0, _ => by
  rw [List.flatMap_nil, List.append_nil, splitChar_no_sep '.' s0 h0, List.map_nil]
| t :: rest, s0, h0, hrest => by
  have hchain : (t :: rest).flatMap (fun t => '.' :: t.data) =
      '.' :: (t.data ++ rest.flatMap (fun t => '.' :: t.data)) := by
    rw [List.flatMap_cons]
    rfl
  rw [hchain, splitChar_append_sep '.' s0 _ h0]
  rw [splitChar_dotChain rest t.data (hrest t (List.mem_cons_self t rest))
    (fun x hx => hrest x (List.mem_cons_of_mem t hx))]
  rw [List.map_cons]

/-! ### The per-side round trip: re-expanding a condensed side -/

theorem expand_condense (l : List String) (hne : ∀ t ∈ l, t.data ≠ [])
    (hgood : ∀ t ∈ l, '.' ∉ t.data ∧ '^' ∉ t.data) (h1 : l ≠ ["1"]) :
    ∃ l2, expand_units (condense_units l).data = some l2 ∧ List.Perm l2 l := by
  by_cases hl : l = []
  · subst hl
    exact ⟨[], by decide, List.Perm.nil⟩
  cases hD : distinctIn [] l with
  | nil => exact absurd hD (distinctIn_nil_ne_nil hl)
  | cons d0 D2 =>
  have hmemD : ∀ t, t ∈ d0 :: D2 → t ∈ l := fun t ht =>
    ((distinctIn_mem l [] t).mp (by rw [hD]; exact ht)).1
  have hd0l : d0 ∈ l := hmemD d0 (List.mem_cons_self _ _)
  have hsegdot : ∀ t ∈ l, '.' ∉ (segOf l t).data := by
    intro t htl hc
    rcases segOf_chars hc with h | h | h
    · cases h
    · exact absurd h (by decide)
    · exact (hgood t htl).1 h
  have hdata : (condense_units l).data =
      (segOf l d0).data ++ (D2.map (segOf l)).flatMap (fun s => '.' :: s.data) := by
    rw [condense_units_eq, hD, List.map_cons]
    exact dotJoin_cons_data _ _ (segOf_data_ne_nil (hne d0 hd0l))
  have hsplit : splitChar '.' (condense_units l).data =
      (segOf l d0).data :: (D2.map (segOf l)).map String.data := by
    rw [hdata]
    exact splitChar_dotChain (D2.map (segOf l)) _ (hsegdot d0 hd0l)
      (by
        intro x hx
        rw [List.mem_map] at hx
        obtain ⟨t, htD, rfl⟩ := hx
        exact hsegdot t (hmemD t (List.mem_cons_of_mem d0 htD)))
  have hchunks : (segOf l d0).data :: (D2.map (segOf l)).map String.data =
      (d0 :: D2).map (fun t => (segOf l t).data) := by
    rw [List.map_cons, List.map_map]
    rfl
  have hne1 : (condense_units l).data ≠ ['1'] := by
    intro heq
    have hsp : splitChar '.' (['1'] : List Char) = [['1']] := by decide
    rw [heq, hsp] at hsplit
    have h0 : (segOf l d0).data = ['1'] ∧ (D2.map (segOf l)).map String.data = [] :=
      ⟨(List.cons.inj hsplit).1.symm, (List.cons.inj hsplit).2.symm⟩
    obtain ⟨hseg1, hD2nil⟩ := h0
    have hD2 : D2 = [] := by
      rcases List.map_eq_nil_iff.mp hD2nil with h
      exact List.map_eq_nil_iff.mp h
    by_cases hc : l.count d0 > 1
    · rw [segOf_data_many hc] at hseg1
      have : '^' ∈ (['1'] : List Char) := by
        rw [← hseg1]
        exact List.mem_append_right _ (List.mem_cons_self _ _)
      exact absurd this (by decide)
    · rw [segOf_data_one hc] at hseg1
      have hd01 : d0 = "1" := strEq_of_data hseg1
      have hall : ∀ b ∈ l, d0 = b := by
        intro b hb
        have : b ∈ distinctIn [] l := (distinctIn_mem l [] b).mpr ⟨hb, List.not_mem_nil b⟩
        rw [hD, hD2] at this
        exact (List.mem_singleton.mp this).symm
      have hcnt : l.count d0 = l.length := List.count_eq_length.mpr hall
      have hlen : l.length = 1 := by
        have hge : 1 ≤ l.count d0 := List.count_pos_iff.mpr hd0l
        omega
      obtain ⟨a, ha⟩ := List.length_eq_one.mp hlen
      have : a = d0 := (hall a (by rw [ha]; exact List.mem_cons_self a [])).symm
      rw [ha, this, hd01] at h1
      exact h1 rfl
  have hexp : ∀ t ∈ d0 :: D2,
      expandOne ((segOf l t).data) = some (List.replicate (l.count t) t) := by
    intro t ht
    have htl : t ∈ l := hmemD t ht
    by_cases hc : l.count t > 1
    · rw [segOf_data_many hc]
      exact expandOne_power t (l.count t) (hgood t htl).2
    · rw [segOf_data_one hc]
      have hc1 : l.count t = 1 := by
        have := List.count_pos_iff.mpr htl
        omega
      rw [hc1, List.replicate_one]
      exact expandOne_no_caret t (hgood t htl).2
  refine ⟨(d0 :: D2).flatMap (fun t => List.replicate (l.count t) t), ?_, ?_⟩
  · rw [expand_units, if_neg hne1, hsplit, hchunks]
    have hfilter : ((d0 :: D2).map (fun t => (segOf l t).data)).filter
        (fun x => x.length > 0) = (d0 :: D2).map (fun t => (segOf l t).data) := by
      rw [List.filter_eq_self]
      intro x hx
      rw [List.mem_map] at hx
      obtain ⟨t, htD, rfl⟩ := hx
      have h2 : (segOf l t).data ≠ [] := segOf_data_ne_nil (hne t (hmemD t htD))
      simpa using List.length_pos.mpr h2
    rw [hfilter]
    exact expandTokens_map (d0 :: D2) _ _ hexp
  · rw [← hD]
    exact distinct_flatMap_perm l

/-! ### Characters of parsed tokens -/

theorem expandOne_tokens {u : List Char} {ts : List String} (h : expandOne u = some ts) :
    ∀ t ∈ ts, ∀ ch ∈ t.data, ch ∈ u ∧ ch ≠ '^' := by
  by_cases hc : '^' ∈ u
  · rw [expandOne, if_pos hc] at h
    split at h
    · rename_i x nstr heq
      split at h
      · rename_i n hp
        cases Option.some.inj h
        intro t ht ch hch
        have htx : t = String.mk x := List.eq_of_mem_replicate ht
        rw [htx] at hch
        have hxchunk : x ∈ splitChar '^' u := by
          rw [heq]
          exact List.mem_cons_self _ _
        refine ⟨splitChar_chunk_chars '^' u x hxchunk ch hch, ?_⟩
        intro hcontra
        exact splitChar_chunk_no_sep '^' u x hxchunk (hcontra ▸ hch)
      · cases h
    · cases h
  · rw [expandOne, if_neg hc] at h
    cases Option.some.inj h
    intro t ht ch hch
    rcases List.mem_singleton.mp ht with rfl
    exact ⟨hch, fun hcontra => hc (hcontra ▸ hch)⟩

theorem expandTokens_tokens : ∀ {chunks : List (List Char)} {l : List String},
    expandTokens chunks = some l →
    ∀ t ∈ l, ∃ u ∈ chunks, ∀ ch ∈ t.data, ch ∈ u ∧ ch ≠ '^'
| [], l, h, t, ht => by
  cases Option.some.inj h
  cases ht
| u :: chunks, l, h, t, ht => by
  rw [expandTokens] at h
  cases he : expandOne u with
  | none => rw [he] at h; cases h
  | some e =>
    rw [he] at h
    cases hr : expandTokens chunks with
    | none => rw [hr] at h; simp [bind, Option.bind] at h
    | some r =>
      rw [hr] at h
      simp only [bind, Option.bind, pure] at h
      cases Option.some.inj h
      rcases List.mem_append.mp ht with ht | ht
      · exact ⟨u, List.mem_cons_self _ _, expandOne_tokens he t ht⟩
      · obtain ⟨u2, hu2, hgood⟩ := expandTokens_tokens hr t ht
        exact ⟨u2, List.mem_cons_of_mem u hu2, hgood⟩

theorem expand_units_tokens {side : List Char} {l : List String}
    (h : expand_units side = some l) :
    ∀ t ∈ l, ∀ ch ∈ t.data, ch ∈ side ∧ ch ≠ '.' ∧ ch ≠ '^' := by
  rw [expand_units] at h
  by_cases h1 : side = ['1']
  · rw [if_pos h1] at h
    cases Option.some.inj h
    intro t ht
    cases ht
  · rw [if_neg h1] at h
    intro t ht ch hch
    obtain ⟨u, hu, hgood⟩ := expandTokens_tokens h t ht
    have hu2 : u ∈ splitChar '.' side := (List.mem_filter.mp hu).1
    obtain ⟨hchu, hch2⟩ := hgood ch hch
    refine ⟨splitChar_chunk_chars '.' side u hu2 ch hchu, ?_, hch2⟩
    intro hcontra
    exact splitChar_chunk_no_sep '.' side u hu2 (hcontra ▸ hchu)

theorem fromStrSides_no_slash (s : String) :
    '/' ∉ (fromStrSides s).1 ∧ '/' ∉ (fromStrSides s).2 := by
  rw [fromStrSides]
  by_cases hs : '/' ∈ s.data
  · rw [if_pos hs]
    cases hsp : splitChar '/' s.data with
    | nil => exact ⟨List.not_mem_nil _, List.not_mem_nil _⟩
    | cons n ds =>
      constructor
      · exact splitChar_chunk_no_sep '/' s.data n (by rw [hsp]; exact List.mem_cons_self _ _)
      · intro hmem
        rcases joinChar_mem '.' ds '/' hmem with h | ⟨p, hp, hchp⟩
        · cases h
        · exact splitChar_chunk_no_sep '/' s.data p
            (by rw [hsp]; exact List.mem_cons_of_mem n hp) hchp
  · rw [if_neg hs]
    exact ⟨hs, List.not_mem_nil _⟩

/-- Every token of a parsed dimension vector is free of the three delimiter
characters. -/
theorem from_str_good {s : String} {v : SIUnits} (h : from_str s = some v) :
    (∀ t ∈ v.numerator, '.' ∉ t.data ∧ '^' ∉ t.data ∧ '/' ∉ t.data)
    ∧ (∀ t ∈ v.denominator, '.' ∉ t.data ∧ '^' ∉ t.data ∧ '/' ∉ t.data) := by
  obtain ⟨nl, dl, hn, hd, hv⟩ := from_str_shape h
  obtain ⟨hs1, hs2⟩ := fromStrSides_no_slash s
  constructor
  · intro t ht
    have htn : t ∈ nl := by
      rw [hv] at ht
      simp only [mkSIUnits, cancelUnits_eq_diff] at ht
      exact List.diff_subset _ _ ((pysort_perm _).mem_iff.mp ht)
    have hchars := expand_units_tokens hn t htn
    refine ⟨fun hc => (hchars _ hc).2.1 rfl, fun hc => (hchars _ hc).2.2 rfl,
      fun hc => hs1 ((hchars _ hc).1)⟩
  · intro t ht
    have htd : t ∈ dl := by
      rw [hv] at ht
      simp only [mkSIUnits, cancelUnits_eq_diff] at ht
      exact List.diff_subset _ _ ((pysort_perm _).mem_iff.mp ht)
    have hchars := expand_units_tokens hd t htd
    refine ⟨fun hc => (hchars _ hc).2.1 rfl, fun hc => (hchars _ hc).2.2 rfl,
      fun hc => hs2 ((hchars _ hc).1)⟩

/-! ### Claim C9 itself -/

/-- Counterexample to C9: `"m.1/m"` parses fine (to numerator `["1"]`), but
renders as `"1"`, which re-parses as the empty vector — not even
`SIUnits.__eq__`-equal to the original. -/
theorem claim_C9_counterexample :
    from_str "m.1/m" = some ⟨["1"], []⟩
    ∧ (from_str "m.1/m").map SIUnits.str = some "1"
    ∧ from_str "1" = some ⟨[], []⟩
    ∧ SIUnits.eq ⟨[], []⟩ ⟨["1"], []⟩ = false := by
  refine ⟨?_, ?_, ?_, ?_⟩ <;> decide

/-- C9 as amended: for every expression `e` whose parse succeeds,
re-parsing the rendered text returns the very same canonical vector —
provided the parsed vector contains no empty token and neither side is
exactly the single token `"1"` (those are the inputs on which the `"1"`
special case and the empty-segment handling of `condense_units` lose
information). -/
theorem claim_C9_amended (e : String) (v : SIUnits) (h : from_str e = some v)
    (hn1 : "" ∉ v.numerator) (hn2 : "" ∉ v.denominator)
    (h1n : v.numerator ≠ ["1"]) (h1d : v.denominator ≠ ["1"]) :
    from_str (SIUnits.str v) = some v := by
  have hcf := from_str_canonicalForm h
  have hsimp := canonicalForm_simplify hcf
  obtain ⟨hgN, hgD⟩ := from_str_good h
  have hneN : ∀ t ∈ v.numerator, t.data ≠ [] := by
    intro t ht hc
    exact hn1 ((strEq_of_data hc : t = "") ▸ ht)
  have hneD : ∀ t ∈ v.denominator, t.data ≠ [] := by
    intro t ht hc
    exact hn2 ((strEq_of_data hc : t = "") ▸ ht)
  obtain ⟨l2, hl2, hp2⟩ := expand_condense v.numerator hneN
    (fun t ht => ⟨(hgN t ht).1, (hgN t ht).2.1⟩) h1n
  have hmk : ∀ l3, List.Perm l3 v.denominator → mkSIUnits l2 l3 = v := by
    intro l3 hp3
    have hdisj : ∀ t ∈ l2, t ∉ l3 := fun t ht hmem =>
      hcf.1 t (hp2.mem_iff.mp ht) (hp3.mem_iff.mp hmem)
    rw [mkSIUnits, cancelUnits_of_disjoint l2 l3 hdisj]
    have h2 : pysort l2 = v.numerator :=
      sorted_eq_of_perm ((pysort_perm l2).trans hp2) (pysort_sorted l2) hcf.2.1
    have h3 : pysort l3 = v.denominator :=
      sorted_eq_of_perm ((pysort_perm l3).trans hp3) (pysort_sorted l3) hcf.2.2
    show SIUnits.mk (pysort l2) (pysort l3) = v
    rw [h2, h3]
  by_cases hD : v.denominator = []
  · have hstr : SIUnits.str v = condense_units v.numerator := by
      rw [SIUnits.str]
      simp only [hsimp]
      rw [if_neg (by rw [hD]; decide)]
    have hnoslash : '/' ∉ (SIUnits.str v).data := by
      rw [hstr]
      exact condense_no_slash hneN (fun t ht => (hgN t ht).2.2)
    have hsides : fromStrSides (SIUnits.str v) =
        ((condense_units v.numerator).data, ([] : List Char)) := by
      rw [fromStrSides, if_neg hnoslash, hstr]
    rw [from_str, hsides]
    have hd2 : expand_units ([] : List Char) = some [] := by decide
    simp only [hl2, hd2, bind, Option.bind, pure]
    rw [hmk [] (by rw [hD])]
  · obtain ⟨l3, hl3, hp3⟩ := expand_condense v.denominator hneD
      (fun t ht => ⟨(hgD t ht).1, (hgD t ht).2.1⟩) h1d
    have hstr : SIUnits.str v =
        condense_units v.numerator ++ "/" ++ condense_units v.denominator := by
      rw [SIUnits.str]
      simp only [hsimp]
      rw [if_pos (List.length_pos.mpr hD)]
    have hslN : '/' ∉ (condense_units v.numerator).data :=
      condense_no_slash hneN (fun t ht => (hgN t ht).2.2)
    have hslD : '/' ∉ (condense_units v.denominator).data :=
      condense_no_slash hneD (fun t ht => (hgD t ht).2.2)
    have hdata : (SIUnits.str v).data =
        (condense_units v.numerator).data ++ '/' :: (condense_units v.denominator).data := by
      rw [hstr, strAppend_data, strAppend_data]
      simp
    have hmem : '/' ∈ (SIUnits.str v).data := by
      rw [hdata]
      exact List.mem_append_right _ (List.mem_cons_self _ _)
    have hsides : fromStrSides (SIUnits.str v) =
        ((condense_units v.numerator).data, (condense_units v.denominator).data) := by
      rw [fromStrSides, if_pos hmem, hdata]
      rw [splitChar_append_sep '/' _ _ hslN, splitChar_no_sep '/' _ hslD]
      rfl
    rw [from_str, hsides]
    simp only [hl2, hl3, bind, Option.bind, pure]
    rw [hmk l3 hp3]

/-- Witness for the amended C9: the vector parsed from `"kg.m/s^2"` renders
and re-parses to itself. -/
theorem claim_C9_amended_witness :
    from_str (SIUnits.str ⟨["kg", "m"], ["s", "s"]⟩) = some ⟨["kg", "m"], ["s", "s"]⟩ :=
  claim_C9_amended "kg.m/s^2" ⟨["kg", "m"], ["s", "s"]⟩ (by decide) (by decide)
    (by decide) (by decide) (by decide)

end SIGen
